import Mathlib

/-!
Verification development for the bencode-python codec (SastaDev/bencode-python).

The Python source (`bencode/decoder.py`, `bencode/encoder.py`) is shallowly
embedded: byte buffers are `List Nat` (byte values 0..255), Python `int` is
`Int`, buffer positions are `Int` (Python integers, with Python's negative
index and slice semantics), and exceptions are modelled by `Except` with an
explicit error kind per exception class.  The fueled decoder loops mirror the
`while` loops of `decode_list` / `decode_dictionary`; `none` marks fuel
exhaustion (the source loop would still be running).
-/

namespace Bencode

/-- ASCII decimal digit test, mirroring `ord('0') <= c <= ord('9')`. -/
def isDigit (c : Nat) : Prop := 48 ≤ c ∧ c ≤ 57

instance (c : Nat) : Decidable (isDigit c) := by unfold isDigit; infer_instance

/-- ASCII whitespace recognised by Python `int()` when converting a byte
string (space, tab, newline, vertical tab, form feed, carriage return). -/
def isSpace (c : Nat) : Prop := c = 32 ∨ c = 9 ∨ c = 10 ∨ c = 11 ∨ c = 12 ∨ c = 13

instance (c : Nat) : Decidable (isSpace c) := by unfold isSpace; infer_instance

/-- Strip leading and trailing ASCII whitespace, as Python `int()` does
before parsing a numeric literal. -/
def stripWs (l : List Nat) : List Nat :=
  ((l.dropWhile (fun c => decide (isSpace c))).reverse.dropWhile
    (fun c => decide (isSpace c))).reverse

/-- Parse the remainder of a Python `digitpart` after its first digit:
digits, with single underscores allowed between digits (CPython grammar
`digit (["_"] digit)*`).  `acc` is the value of the digits read so far. -/
def digitsTail : List Nat → Nat → Option Nat
  | [], acc => some acc
  | c :: rest, acc =>
    if isDigit c then digitsTail rest (acc * 10 + (c - 48))
    else if c = 95 then
      match rest with
      | c2 :: rest2 =>
        if isDigit c2 then digitsTail rest2 (acc * 10 + (c2 - 48)) else none
      | [] => none
    else none

/-- Parse a full Python `digitpart`: nonempty, starts with a digit. -/
def parseDigitpart : List Nat → Option Nat
  | [] => none
  | c :: rest => if isDigit c then digitsTail rest (c - 48) else none

/-- Python `int(bytes)`: strip surrounding whitespace, optional single sign,
then a digitpart (underscores permitted between digits).  `none` models
`ValueError`. -/
def pyInt (s : List Nat) : Option Int :=
  match stripWs s with
  | [] => none
  | c :: rest =>
    if c = 45 then
      match parseDigitpart rest with
      | none => none
      | some m => some (-(m : Int))
    else if c = 43 then
      match parseDigitpart rest with
      | none => none
      | some m => some ((m : Int))
    else
      match parseDigitpart (c :: rest) with
      | none => none
      | some m => some ((m : Int))

/-- Little-endian ASCII decimal digits of `n`, by repeated division;
`fuel ≥ n` guarantees completion (each step divides by 10). -/
def natDigitsAux : Nat → Nat → List Nat
  | 0, _ => []
  | _ + 1, 0 => []
  | f + 1, n + 1 => ((n + 1) % 10 + 48) :: natDigitsAux f ((n + 1) / 10)

/-- Decimal digits (ASCII bytes) of a natural number, most significant
first, as produced by Python `str` on a nonnegative integer. -/
def natDigits (n : Nat) : List Nat :=
  if n = 0 then [48] else (natDigitsAux n n).reverse

/-- ASCII bytes of Python `str(n)` for an integer `n`: minimal decimal
digits, `-` prefix exactly for negative `n`. -/
def pyStrInt (n : Int) : List Nat :=
  if n < 0 then 45 :: natDigits (-n).toNat else natDigits n.toNat

/-- Numeric value of a list of ASCII digit bytes (most significant first). -/
def bytesToNat (ds : List Nat) : Nat :=
  ds.foldl (fun a c => a * 10 + (c - 48)) 0

/-- Normalise a Python slice endpoint against a buffer of length `len`:
negative values count from the end (clamped at 0), others are clamped at
`len`. -/
def normIdx (len : Nat) (i : Int) : Nat :=
  if i < 0 then ((len : Int) + i).toNat else min len i.toNat

/-- Python `data[a:b]` on a byte buffer. -/
def pySlice (data : List Nat) (a b : Int) : List Nat :=
  (data.take (normIdx data.length b)).drop (normIdx data.length a)

/-- Index of the first occurrence of byte `c` in `l` (helper for `find`). -/
def findChar (c : Nat) : List Nat → Option Nat
  | [] => none
  | b :: rest => if b = c then some 0 else (findChar c rest).map (· + 1)

/-- Python `data.find(bytes([c]), start)`: first index `≥ start` (after
Python's slice-style normalisation of `start`) holding byte `c`, else
`-1`. -/
def pyFind (data : List Nat) (c : Nat) (start : Int) : Int :=
  match findChar c (data.drop (normIdx data.length start)) with
  | some k => (normIdx data.length start : Int) + (k : Int)
  | none => -1

/-- Python `data[i]` on a byte buffer: negative indices count from the end,
out-of-range access is `none` (an `IndexError`). -/
def pyIndex (data : List Nat) (i : Int) : Option Nat :=
  if 0 ≤ i then (data.drop i.toNat).head?
  else if 0 ≤ (data.length : Int) + i then
    (data.drop ((data.length : Int) + i).toNat).head?
  else none

/-- The Python runtime values the codec manipulates: the four bencode kinds
(`int`, `bytes`, `list`, `dict` as an insertion-ordered association list),
plus `str` (accepted by the encoder, produced never by the decoder), `bool`
(which `isinstance(-, int)` accepts), `None`, and a stand-in for any other
non-encodable object.  A `str` carries the bytes of its UTF-8 encoding. -/
inductive PyVal where
  | int (n : Int)
  | bytes (s : List Nat)
  | str (s : List Nat)
  | bool (b : Bool)
  | list (l : List PyVal)
  | dict (d : List (PyVal × PyVal))
  | pyNone
  | other (tag : Nat)

mutual

/-- Python `==` on the modelled values (structural equality). -/
def beqV : PyVal → PyVal → Bool
  | .int a, .int b => a == b
  | .bytes a, .bytes b => a == b
  | .str a, .str b => a == b
  | .bool a, .bool b => a == b
  | .list a, .list b => beqL a b
  | .dict a, .dict b => beqD a b
  | .pyNone, .pyNone => true
  | .other a, .other b => a == b
  | _, _ => false

/-- Python `==` on lists of modelled values. -/
def beqL : List PyVal → List PyVal → Bool
  | [], [] => true
  | a :: as, b :: bs => beqV a b && beqL as bs
  | _, _ => false

/-- Python `==` on ordered key-value pair lists. -/
def beqD : List (PyVal × PyVal) → List (PyVal × PyVal) → Bool
  | [], [] => true
  | (k1, v1) :: r1, (k2, v2) :: r2 => beqV k1 k2 && beqV v1 v2 && beqD r1 r2
  | _, _ => false

end

/-- Exception kinds the decoder can raise: the four `Decode*Error` classes
and Python's builtin `IndexError` (unguarded `data[pos]`).

Modelled from the spec: the repository's `exceptions` module itself is not
in the sources; per the spec's error taxonomy it declares one distinct error
class per value kind per direction. -/
inductive DErr where
  | intErr | strErr | listErr | dictErr | idxErr
deriving DecidableEq

/-- Exception kinds the encoder can raise (`Encode*Error` plus the generic
`EncodeError`).  Modelled from the spec, as for `DErr`. -/
inductive EErr where
  | intErr | strErr | listErr | dictErr | genErr
deriving DecidableEq

namespace Decoder

/-- `Decoder.decode_integer(data, pos)` (decoder.py lines 31-43), on a
`bytes` buffer: require byte `i` at `pos` (`IndexError` if out of range),
find the first `e` from `pos`, parse the bytes strictly between with
Python `int`. -/
def decode_integer (data : List Nat) (pos : Int) : Except DErr (Int × Int) :=
  match pyIndex data pos with
  | none => .error .idxErr
  | some b =>
    if b ≠ 105 then .error .intErr
    else
      let ePos := pyFind data 101 pos
      if ePos = -1 then .error .intErr
      else
        match pyInt (pySlice data (pos + 1) ePos) with
        | none => .error .intErr
        | some n => .ok (n, ePos)

/-- `Decoder.decode_string(data, pos)` (decoder.py lines 65-79): find the
first `:` from `pos`, parse `data[pos:colon]` as the length with Python
`int`, take that many bytes after the colon, and return the payload and
`colon + 1 + length - 1`. -/
def decode_string (data : List Nat) (pos : Int) : Except DErr (List Nat × Int) :=
  let colon := pyFind data 58 pos
  if colon = -1 then .error .strErr
  else
    match pyInt (pySlice data pos colon) with
    | none => .error .strErr
    | some len =>
      let e := colon + 1 + len
      let s := pySlice data (colon + 1) e
      if (s.length : Int) < len then .error .strErr
      else .ok (s, e - 1)

/-- Python `result[key] = value` on an insertion-ordered dictionary:
replace in place if the key is present, else append. -/
def dictSet (d : List (PyVal × PyVal)) (k v : PyVal) : List (PyVal × PyVal) :=
  if d.any (fun p => beqV p.1 k) then
    d.map (fun p => if beqV p.1 k then (p.1, v) else p)
  else d ++ [(k, v)]

/-- The four fueled routines of the decoder, built by recursion on fuel so
that each `while` iteration and each nested container parse steps down one
level.  `dlist`/`ddict` are `decode_list`/`decode_dictionary`;
`dloopL`/`dloopD` are their `while` loops (cursor and accumulator as
arguments). -/
structure DecFns where
  dlist : List Nat → Int → Option (Except DErr (List PyVal × Int))
  dloopL : List Nat → Int → List PyVal → Option (Except DErr (List PyVal × Int))
  ddict : List Nat → Int → Option (Except DErr (List (PyVal × PyVal) × Int))
  dloopD : List Nat → Int → List (PyVal × PyVal) →
    Option (Except DErr (List (PyVal × PyVal) × Int))

/-- Fuel-indexed family of the container decoders.  Level `f + 1` mirrors
one step of the source (decoder.py lines 101-192); every recursive use —
the next `while` iteration or a nested `decode_list`/`decode_dictionary`
call — runs at level `f`. -/
def decFns : Nat → DecFns
  | 0 =>
    { dlist := fun _ _ => none, dloopL := fun _ _ _ => none,
      ddict := fun _ _ => none, dloopD := fun _ _ _ => none }
  | f + 1 =>
    let prev := decFns f
    { dlist := fun data pos =>
        match pyIndex data pos with
        | none => some (.error .idxErr)
        | some b =>
          if b ≠ 108 then some (.error .listErr)
          else prev.dloopL data (pos + 1) []
      dloopL := fun data cur acc =>
        if cur < (data.length : Int) then
          match pyIndex data cur with
          | none => some (.error .idxErr)
          | some b =>
            if b = 105 then
              match decode_integer data cur with
              | .error e => some (.error e)
              | .ok (n, ePos) => prev.dloopL data (ePos + 1) (acc ++ [.int n])
            else if isDigit b then
              match decode_string data cur with
              | .error e => some (.error e)
              | .ok (s, ePos) => prev.dloopL data (ePos + 1) (acc ++ [.bytes s])
            else if b = 108 then
              match prev.dlist data cur with
              | none => none
              | some (.error e) => some (.error e)
              | some (.ok (l, ePos)) => prev.dloopL data (ePos + 1) (acc ++ [.list l])
            else if b = 100 then
              match prev.ddict data cur with
              | none => none
              | some (.error e) => some (.error e)
              | some (.ok (d, ePos)) => prev.dloopL data (ePos + 1) (acc ++ [.dict d])
            else if b = 101 then some (.ok (acc, cur))
            else some (.error .listErr)
        else some (.error .listErr)
      ddict := fun data pos =>
        match pyIndex data pos with
        | none => some (.error .idxErr)
        | some b =>
          if b ≠ 100 then some (.error .listErr)
          else prev.dloopD data (pos + 1) []
      dloopD := fun data cur acc =>
        if cur < (data.length : Int) then
          match pyIndex data cur with
          | none => some (.error .idxErr)
          | some b =>
            if b = 101 then some (.ok (acc, cur))
            else
              match decode_string data cur with
              | .error e => some (.error e)
              | .ok (k, kEnd) =>
                match pyIndex data (kEnd + 1) with
                | none => some (.error .idxErr)
                | some b2 =>
                  if b2 = 105 then
                    match decode_integer data (kEnd + 1) with
                    | .error e => some (.error e)
                    | .ok (n, ePos) =>
                      prev.dloopD data (ePos + 1) (dictSet acc (.bytes k) (.int n))
                  else if isDigit b2 then
                    match decode_string data (kEnd + 1) with
                    | .error e => some (.error e)
                    | .ok (s, ePos) =>
                      prev.dloopD data (ePos + 1) (dictSet acc (.bytes k) (.bytes s))
                  else if b2 = 108 then
                    match prev.dlist data (kEnd + 1) with
                    | none => none
                    | some (.error e) => some (.error e)
                    | some (.ok (l, ePos)) =>
                      prev.dloopD data (ePos + 1) (dictSet acc (.bytes k) (.list l))
                  else if b2 = 100 then
                    match prev.ddict data (kEnd + 1) with
                    | none => none
                    | some (.error e) => some (.error e)
                    | some (.ok (d2, ePos)) =>
                      prev.dloopD data (ePos + 1) (dictSet acc (.bytes k) (.dict d2))
                  else some (.error .dictErr)
        else some (.error .dictErr) }

/-- `Decoder.decode_list` (decoder.py lines 101-134), fueled.  Note the raise
of `DecodeListError` both for a missing leading `l` and — via the `while`'s
`else:` clause — when the cursor leaves the buffer without meeting `e`. -/
def decode_list (fuel : Nat) (data : List Nat) (pos : Int) :
    Option (Except DErr (List PyVal × Int)) :=
  (decFns fuel).dlist data pos

/-- The `while` loop of `decode_list`. -/
def listLoop (fuel : Nat) (data : List Nat) (cur : Int) (acc : List PyVal) :
    Option (Except DErr (List PyVal × Int)) :=
  (decFns fuel).dloopL data cur acc

/-- `Decoder.decode_dictionary` (decoder.py lines 157-192), fueled.  The
source raises `DecodeListError` (not `DecodeDictionaryError`) when the byte
at `pos` is not `d` (line 161). -/
def decode_dictionary (fuel : Nat) (data : List Nat) (pos : Int) :
    Option (Except DErr (List (PyVal × PyVal) × Int)) :=
  (decFns fuel).ddict data pos

/-- The `while` loop of `decode_dictionary`. -/
def dictLoop (fuel : Nat) (data : List Nat) (cur : Int)
    (acc : List (PyVal × PyVal)) :
    Option (Except DErr (List (PyVal × PyVal) × Int)) :=
  (decFns fuel).dloopD data cur acc

/-- `Decoder.decode(data, pos)` (decoder.py lines 217-230): dispatch on the
byte at `pos`; an unrecognised leading byte falls off the end of the
function, which in Python returns `None`. -/
def decode (fuel : Nat) (data : List Nat) (pos : Int) :
    Option (Except DErr PyVal) :=
  match pyIndex data pos with
  | none => some (.error .idxErr)
  | some b =>
    if b = 105 then some ((decode_integer data pos).map (fun r => PyVal.int r.1))
    else if isDigit b then
      some ((decode_string data pos).map (fun r => PyVal.bytes r.1))
    else if b = 108 then
      (decode_list fuel data pos).map (Except.map (fun r => PyVal.list r.1))
    else if b = 100 then
      (decode_dictionary fuel data pos).map (Except.map (fun r => PyVal.dict r.1))
    else some (.ok PyVal.pyNone)

end Decoder

namespace Encoder

/-- `Encoder.encode_integer` (encoder.py lines 25-29): `isinstance(data, int)`
admits `bool` (a subclass of `int`), and `f'i{data}e'` then interpolates
`True`/`False` literally. -/
def encode_integer : PyVal → Except EErr (List Nat)
  | .int n => .ok (105 :: pyStrInt n ++ [101])
  | .bool b =>
    .ok (105 :: (if b then [84, 114, 117, 101] else [70, 97, 108, 115, 101]) ++ [101])
  | _ => .error .intErr

/-- `Encoder.encode_string` (encoder.py lines 49-54): accepts `str` (UTF-8
encoded first) or `bytes`; emits `<len>:<payload>`. -/
def encode_string : PyVal → Except EErr (List Nat)
  | .str s => .ok (natDigits s.length ++ 58 :: s)
  | .bytes s => .ok (natDigits s.length ++ 58 :: s)
  | _ => .error .strErr

mutual

/-- `Encoder.encode_list` (encoder.py lines 74-95). -/
def encode_list : PyVal → Except EErr (List Nat)
  | .list l =>
    match encItems l with
    | .error e => .error e
    | .ok m => .ok (108 :: m ++ [101])
  | _ => .error .listErr

/-- The element loop of `encode_list`: `isinstance` checks in source order
(`int` first, so `bool` lands in the integer branch); an element matching no
branch is silently skipped. -/
def encItems : List PyVal → Except EErr (List Nat)
  | [] => .ok []
  | v :: rest =>
    match v with
    | .int n =>
      match encode_integer (.int n), encItems rest with
      | .error e, _ => .error e
      | _, .error e => .error e
      | .ok i, .ok r => .ok (i ++ r)
    | .bool b =>
      match encode_integer (.bool b), encItems rest with
      | .error e, _ => .error e
      | _, .error e => .error e
      | .ok i, .ok r => .ok (i ++ r)
    | .str s =>
      match encode_string (.str s), encItems rest with
      | .error e, _ => .error e
      | _, .error e => .error e
      | .ok i, .ok r => .ok (i ++ r)
    | .bytes s =>
      match encode_string (.bytes s), encItems rest with
      | .error e, _ => .error e
      | _, .error e => .error e
      | .ok i, .ok r => .ok (i ++ r)
    | .list l =>
      match encode_list (.list l), encItems rest with
      | .error e, _ => .error e
      | _, .error e => .error e
      | .ok i, .ok r => .ok (i ++ r)
    | .dict d =>
      match encode_dictionary (.dict d), encItems rest with
      | .error e, _ => .error e
      | _, .error e => .error e
      | .ok i, .ok r => .ok (i ++ r)
    | _ => encItems rest

/-- `Encoder.encode_dictionary` (encoder.py lines 116-140).  A non-dict
argument raises `EncodeListError` in the source (line 117). -/
def encode_dictionary : PyVal → Except EErr (List Nat)
  | .dict d =>
    match encPairs d with
    | .error e => .error e
    | .ok m => .ok (100 :: m ++ [101])
  | _ => .error .listErr

/-- The pair loop of `encode_dictionary`: keys must be `str`/`bytes`
(else `EncodeDictionaryError`); values are dispatched `str`/`bytes` first,
then `int` (catching `bool`), `list`, `dict`, else
`EncodeDictionaryError`. -/
def encPairs : List (PyVal × PyVal) → Except EErr (List Nat)
  | [] => .ok []
  | (k, v) :: rest =>
    match (match k with
           | .str s => encode_string (.str s)
           | .bytes s => encode_string (.bytes s)
           | _ => .error EErr.dictErr) with
    | .error e => .error e
    | .ok kb =>
      match (match v with
             | .str s => encode_string (.str s)
             | .bytes s => encode_string (.bytes s)
             | .int n => encode_integer (.int n)
             | .bool b => encode_integer (.bool b)
             | .list l => encode_list (.list l)
             | .dict d => encode_dictionary (.dict d)
             | _ => .error EErr.dictErr) with
      | .error e => .error e
      | .ok vb =>
        match encPairs rest with
        | .error e => .error e
        | .ok r => .ok (kb ++ vb ++ r)

end

/-- `Encoder.encode` (encoder.py lines 169-177): `str`/`bytes` first, then
`int` (catching `bool`), `list`, `dict`, else the generic `EncodeError`. -/
def encode : PyVal → Except EErr (List Nat)
  | .str s => encode_string (.str s)
  | .bytes s => encode_string (.bytes s)
  | .int n => encode_integer (.int n)
  | .bool b => encode_integer (.bool b)
  | .list l => encode_list (.list l)
  | .dict d => encode_dictionary (.dict d)
  | _ => .error .genErr

end Encoder

/-- Boolean uniqueness of the keys of an ordered pair list, under Python
`==` — the invariant every Python `dict` maintains. -/
def nodupKeysB : List (PyVal × PyVal) → Bool
  | [] => true
  | (k, _) :: rest => !(rest.any (fun p => beqV p.1 k)) && nodupKeysB rest

mutual

/-- Values built only from the four supported kinds of the round-trip
claim: integers, byte strings, lists of such values, dictionaries with
byte-string keys (unique, as in any Python `dict`) and such values. -/
def supportedB : PyVal → Bool
  | .int _ => true
  | .bytes _ => true
  | .list l => supportedL l
  | .dict d => supportedD d && nodupKeysB d
  | _ => false

/-- All elements supported. -/
def supportedL : List PyVal → Bool
  | [] => true
  | v :: rest => supportedB v && supportedL rest

/-- All keys byte strings, all values supported. -/
def supportedD : List (PyVal × PyVal) → Bool
  | [] => true
  | (k, v) :: rest =>
    (match k with | .bytes _ => true | _ => false) && supportedB v && supportedD rest

end

mutual

/-- Canonical bencode bytes of a value: the output the source encoder
produces when it succeeds (junk on the kinds it rejects or skips). -/
def encBytes : PyVal → List Nat
  | .int n => 105 :: pyStrInt n ++ [101]
  | .bytes s => natDigits s.length ++ 58 :: s
  | .str s => natDigits s.length ++ 58 :: s
  | .bool b =>
    105 :: (if b then [84, 114, 117, 101] else [70, 97, 108, 115, 101]) ++ [101]
  | .list l => 108 :: encBytesL l ++ [101]
  | .dict d => 100 :: encBytesD d ++ [101]
  | .pyNone => []
  | .other _ => []

/-- Concatenated canonical encodings of list elements. -/
def encBytesL : List PyVal → List Nat
  | [] => []
  | v :: rest => encBytes v ++ encBytesL rest

/-- Concatenated canonical encodings of dictionary pairs. -/
def encBytesD : List (PyVal × PyVal) → List Nat
  | [] => []
  | (k, v) :: rest => encBytes k ++ encBytes v ++ encBytesD rest

end

mutual

/-- Fuel sufficient for the fueled decoder on the canonical encoding of a
value: one unit per loop entry, per iteration, and per terminator read. -/
def needB : PyVal → Nat
  | .list l => 1 + needL l
  | .dict d => 1 + needD d
  | _ => 0

/-- Fuel for the `decode_list` loop over encoded elements. -/
def needL : List PyVal → Nat
  | [] => 1
  | v :: rest => 1 + needB v + needL rest

/-- Fuel for the `decode_dictionary` loop over encoded pairs. -/
def needD : List (PyVal × PyVal) → Nat
  | [] => 1
  | (_, v) :: rest => 1 + needB v + needD rest

end

/-- The `decode_dictionary` call at this input never finishes: every fuel
level is exhausted, i.e. the source's `while` loop runs forever. -/
def dictDiverges (data : List Nat) (pos : Int) : Prop :=
  ∀ fuel, Decoder.decode_dictionary fuel data pos = none

/-- The `decode` call at this input never finishes. -/
def decodeDiverges (data : List Nat) (pos : Int) : Prop :=
  ∀ fuel, Decoder.decode fuel data pos = none

/-- The `decode_list` call at this input never finishes. -/
def listDiverges (data : List Nat) (pos : Int) : Prop :=
  ∀ fuel, Decoder.decode_list fuel data pos = none

/-- The claim's wording for `encode_integer` output digits: `ds` is the
minimal decimal representation of `n` — digits only with no leading zero
(other than the literal `0` itself) when `n ≥ 0`, and a single leading `-`
followed by such digits of `-n` when `n < 0` (so `-0` is impossible). -/
def MinimalDecimal (ds : List Nat) (n : Int) : Prop :=
  if n < 0 then
    ∃ t, ds = 45 :: t ∧ (∀ c ∈ t, isDigit c) ∧ t ≠ [] ∧
      t.head? ≠ some 48 ∧ (bytesToNat t : Int) = -n
  else
    (∀ c ∈ ds, isDigit c) ∧ ds ≠ [] ∧ (ds.head? = some 48 → ds = [48]) ∧
      (bytesToNat ds : Int) = n

/-- Per-element encoding by the top-level `Encoder.encode`, concatenated;
spec-side yardstick for the `encode_list` output-shape claim. -/
def encEach : List PyVal → Except EErr (List Nat)
  | [] => .ok []
  | v :: rest =>
    match Encoder.encode v, encEach rest with
    | .error e, _ => .error e
    | _, .error e => .error e
    | .ok b, .ok r => .ok (b ++ r)

/-- A value of none of the four kinds the encoder's list loop recognises
(`None` or any other non-encodable object). -/
def UnsupportedKind (v : PyVal) : Prop :=
  v = .pyNone ∨ ∃ t, v = .other t

/-- The bytes of `b"d0:i42e-7:"`: a dictionary whose second key declares
length `-7`, driving the parse cursor backwards into a loop. -/
def loopBuf : List Nat := [100, 48, 58, 105, 52, 50, 101, 45, 55, 58]

end Bencode

namespace Bencode

theorem natDigitsAux_eq (f : Nat) : ∀ n : Nat, n ≤ f →
    natDigitsAux f n = (Nat.digits 10 n).map (fun d => d + 48) := by
  induction f with
  | zero =>
    intro n hn
    have : n = 0 := by omega
    subst this
    simp [natDigitsAux]
  | succ f ih =>
    intro n hn
    match n with
    | 0 => simp [natDigitsAux]
    | n + 1 =>
      have hdiv : (n + 1) / 10 ≤ f := by
        have := Nat.div_lt_self (Nat.succ_pos n) (by norm_num : 1 < 10)
        omega
      rw [show natDigitsAux (f + 1) (n + 1)
          = ((n + 1) % 10 + 48) :: natDigitsAux f ((n + 1) / 10) from rfl]
      rw [ih _ hdiv, Nat.digits_def' (by norm_num : 1 < 10) (Nat.succ_pos n)]
      rfl

theorem natDigits_eq_digits (n : Nat) :
    natDigits n = if n = 0 then [48]
      else (Nat.digits 10 n).reverse.map (fun d => d + 48) := by
  unfold natDigits
  by_cases h : n = 0
  · simp [h]
  · simp only [h, if_false]
    rw [natDigitsAux_eq n n le_rfl, List.map_reverse]

theorem foldr_eq_ofDigits (L : List Nat) :
    L.foldr (fun d y => y * 10 + d) 0 = Nat.ofDigits 10 L := by
  induction L with
  | nil => simp [Nat.ofDigits]
  | cons d L ih => simp [Nat.ofDigits, ih]; ring

theorem natDigits_digits (n : Nat) : ∀ c ∈ natDigits n, isDigit c := by
  intro c hc
  rw [natDigits_eq_digits] at hc
  by_cases h : n = 0
  · simp [h] at hc; simp [hc, isDigit]
  · simp [h, List.mem_map, List.mem_reverse] at hc
    obtain ⟨d, hd, rfl⟩ := hc
    have := Nat.digits_lt_base (by norm_num) hd
    constructor <;> omega

theorem natDigits_ne_nil (n : Nat) : natDigits n ≠ [] := by
  rw [natDigits_eq_digits]
  by_cases h : n = 0
  · simp [h]
  · simp [h, Nat.digits_ne_nil_iff_ne_zero]

theorem bytesToNat_natDigits (n : Nat) : bytesToNat (natDigits n) = n := by
  rw [natDigits_eq_digits]
  unfold bytesToNat
  by_cases h : n = 0
  · simp [h]
  · simp only [h, if_false]
    rw [List.foldl_map, List.foldl_reverse]
    simp only [Nat.add_sub_cancel]
    rw [foldr_eq_ofDigits, Nat.ofDigits_digits]

theorem natDigits_head_no_zero (n : Nat) (h : (natDigits n).head? = some 48) :
    natDigits n = [48] := by
  by_cases h0 : n = 0
  · simp [natDigits, h0]
  · exfalso
    have hne : Nat.digits 10 n ≠ [] := Nat.digits_ne_nil_iff_ne_zero.mpr h0
    rw [natDigits_eq_digits] at h
    simp only [h0, if_false] at h
    rw [List.head?_map] at h
    rw [List.head?_reverse] at h
    have hlast : (Nat.digits 10 n).getLast hne ≠ 0 := Nat.getLast_digit_ne_zero 10 h0
    rw [List.getLast?_eq_getLast _ hne] at h
    simp only [Option.map_some'] at h
    have : (Nat.digits 10 n).getLast hne + 48 = 48 := Option.some.inj h
    exact hlast (by omega)

theorem digitsTail_all_digits (ds : List Nat) :
    ∀ acc, (∀ c ∈ ds, isDigit c) →
      digitsTail ds acc = some (ds.foldl (fun a c => a * 10 + (c - 48)) acc) := by
  induction ds with
  | nil => intro acc _; simp [digitsTail]
  | cons c rest ih =>
    intro acc hall
    have hc : isDigit c := hall c (List.mem_cons_self c rest)
    unfold digitsTail
    rw [if_pos hc, List.foldl_cons]
    exact ih _ (fun x hx => hall x (List.mem_cons_of_mem _ hx))

theorem parseDigitpart_natDigits (n : Nat) :
    parseDigitpart (natDigits n) = some n := by
  obtain ⟨c, rest, hcr⟩ : ∃ c rest, natDigits n = c :: rest := by
    cases h : natDigits n with
    | nil => exact absurd h (natDigits_ne_nil n)
    | cons c rest => exact ⟨c, rest, rfl⟩
  have hall := natDigits_digits n
  rw [hcr] at hall ⊢
  have hc : isDigit c := hall c (List.mem_cons_self c rest)
  simp only [parseDigitpart]
  rw [if_pos hc]
  rw [digitsTail_all_digits rest (c - 48) (fun x hx => hall x (List.mem_cons_of_mem _ hx))]
  have : rest.foldl (fun a c2 => a * 10 + (c2 - 48)) (c - 48)
      = bytesToNat (c :: rest) := by
    simp [bytesToNat]
  rw [this, ← hcr, bytesToNat_natDigits]

theorem stripWs_eq_self (l : List Nat) (h : ∀ c ∈ l, ¬ isSpace c) :
    stripWs l = l := by
  unfold stripWs
  have h1 : l.dropWhile (fun c => decide (isSpace c)) = l := by
    cases l with
    | nil => rfl
    | cons c rest =>
      rw [List.dropWhile_cons_of_neg]
      simp [h c (List.mem_cons_self c rest)]
  rw [h1]
  have h2 : l.reverse.dropWhile (fun c => decide (isSpace c)) = l.reverse := by
    cases hr : l.reverse with
    | nil => rfl
    | cons c rest =>
      rw [List.dropWhile_cons_of_neg]
      have : c ∈ l := by
        have : c ∈ l.reverse := by rw [hr]; exact List.mem_cons_self c rest
        simpa using this
      simp [h c this]
  rw [h2, List.reverse_reverse]

theorem pyInt_natDigits (n : Nat) : pyInt (natDigits n) = some (n : Int) := by
  have hall := natDigits_digits n
  have hs : stripWs (natDigits n) = natDigits n := by
    apply stripWs_eq_self
    intro c hc
    have := hall c hc
    unfold isDigit at this
    unfold isSpace
    omega
  obtain ⟨c, rest, hcr⟩ : ∃ c rest, natDigits n = c :: rest := by
    cases h : natDigits n with
    | nil => exact absurd h (natDigits_ne_nil n)
    | cons c rest => exact ⟨c, rest, rfl⟩
  have hc : isDigit c := by
    rw [hcr] at hall; exact hall c (List.mem_cons_self c rest)
  have hc45 : c ≠ 45 := by unfold isDigit at hc; omega
  have hc43 : c ≠ 43 := by unfold isDigit at hc; omega
  rw [hcr] at hs
  simp only [pyInt, hcr, hs]
  rw [if_neg hc45, if_neg hc43, ← hcr, parseDigitpart_natDigits]

theorem pyInt_pyStrInt (n : Int) : pyInt (pyStrInt n) = some n := by
  unfold pyStrInt
  by_cases h : n < 0
  · simp only [h, if_pos]
    have hall := natDigits_digits (-n).toNat
    have hs : stripWs (45 :: natDigits (-n).toNat) = 45 :: natDigits (-n).toNat := by
      apply stripWs_eq_self
      intro c hc
      rcases List.mem_cons.mp hc with rfl | hc2
      · unfold isSpace; omega
      · have := hall c hc2; unfold isDigit at this; unfold isSpace; omega
    simp only [pyInt, hs]
    rw [if_pos trivial, parseDigitpart_natDigits]
    show some (-(((-n).toNat : Nat) : Int)) = some n
    congr 1
    omega
  · simp only [h, if_neg, ite_false]
    rw [pyInt_natDigits]
    congr 1
    omega

end Bencode

namespace Bencode

theorem pyStrInt_chars (n : Int) : ∀ c ∈ pyStrInt n, isDigit c ∨ c = 45 := by
  intro c hc
  unfold pyStrInt at hc
  by_cases h : n < 0
  · simp only [h, if_pos] at hc
    rcases List.mem_cons.mp hc with rfl | hc2
    · right; rfl
    · left; exact natDigits_digits _ c hc2
  · simp only [h, if_neg, ite_false] at hc
    left; exact natDigits_digits _ c hc

theorem drop_cons_lt (data : List Nat) (p : Nat) (x : Nat) (xs : List Nat)
    (h : data.drop p = x :: xs) : p < data.length := by
  by_contra hc
  push_neg at hc
  rw [List.drop_eq_nil_of_le hc] at h
  exact List.noConfusion h

theorem pyIndex_nat (data : List Nat) (p : Nat) :
    pyIndex data (p : Int) = (data.drop p).head? := by
  unfold pyIndex
  rw [if_pos (by omega)]
  simp

theorem normIdx_nat (len p : Nat) (h : p ≤ len) : normIdx len (p : Int) = p := by
  unfold normIdx
  rw [if_neg (by omega)]
  simp [h]

theorem pySlice_nat (data : List Nat) (a b : Nat) (ha : a ≤ data.length)
    (hb : b ≤ data.length) :
    pySlice data (a : Int) (b : Int) = (data.drop a).take (b - a) := by
  unfold pySlice
  rw [normIdx_nat _ _ ha, normIdx_nat _ _ hb, List.drop_take]

theorem findChar_first (c : Nat) (A B : List Nat) (hA : ∀ x ∈ A, x ≠ c) :
    findChar c (A ++ c :: B) = some A.length := by
  induction A with
  | nil => simp [findChar]
  | cons a A ih =>
    have ha : a ≠ c := hA a (List.mem_cons_self a A)
    show (if a = c then some 0
      else (findChar c (A ++ c :: B)).map (fun x => x + 1)) = some (a :: A).length
    rw [if_neg ha, ih (fun x hx => hA x (List.mem_cons_of_mem _ hx))]
    rfl

theorem pyFind_first (data : List Nat) (p : Nat) (c : Nat) (A B : List Nat)
    (h : data.drop p = A ++ c :: B) (hA : ∀ x ∈ A, x ≠ c) :
    pyFind data c (p : Int) = (p : Int) + A.length := by
  have hp : p ≤ data.length := by
    by_contra hc
    push_neg at hc
    rw [List.drop_eq_nil_of_le (le_of_lt hc)] at h
    simp at h
  unfold pyFind
  rw [normIdx_nat _ _ hp, h, findChar_first c A B hA]

end Bencode

namespace Bencode

theorem pyStrInt_not_e (n : Int) : ∀ x ∈ pyStrInt n, x ≠ 101 := by
  intro x hx
  rcases pyStrInt_chars n x hx with hd | rfl
  · unfold isDigit at hd; omega
  · decide

theorem pyStrInt_not_colon (n : Int) : ∀ x ∈ pyStrInt n, x ≠ 58 := by
  intro x hx
  rcases pyStrInt_chars n x hx with hd | rfl
  · unfold isDigit at hd; omega
  · decide

theorem decode_integer_enc (data : List Nat) (p : Nat) (n : Int) (rest : List Nat)
    (h : data.drop p = 105 :: (pyStrInt n ++ 101 :: rest)) :
    Decoder.decode_integer data (p : Int)
      = .ok (n, (p : Int) + (pyStrInt n).length + 1) := by
  have hlen : data.length = p + 2 + (pyStrInt n).length + rest.length := by
    have := congrArg List.length h
    rw [List.length_drop] at this
    simp [List.length_append] at this
    have hp : p ≤ data.length := by
      by_contra hc
      push_neg at hc
      rw [List.drop_eq_nil_of_le (le_of_lt hc)] at h
      simp at h
    omega
  have hidx : pyIndex data (p : Int) = some 105 := by
    rw [pyIndex_nat, h]; rfl
  have hfind : pyFind data 101 (p : Int)
      = (p : Int) + ((105 :: pyStrInt n).length : Int) := by
    apply pyFind_first data p 101 (105 :: pyStrInt n) rest
    · rw [h]; rfl
    · intro x hx
      rcases List.mem_cons.mp hx with rfl | hx2
      · decide
      · exact pyStrInt_not_e n x hx2
  have hne : ¬ ((p : Int) + ((105 :: pyStrInt n).length : Int) = -1) := by
    simp [List.length_cons]
    omega
  have hslice : pySlice data ((p : Int) + 1)
      ((p : Int) + ((105 :: pyStrInt n).length : Int)) = pyStrInt n := by
    have h1 : ((p : Int) + 1) = ((p + 1 : Nat) : Int) := by push_cast; ring
    have h2 : ((p : Int) + ((105 :: pyStrInt n).length : Int))
        = ((p + 1 + (pyStrInt n).length : Nat) : Int) := by
      simp [List.length_cons]; push_cast; ring
    rw [h1, h2, pySlice_nat data _ _ (by omega) (by omega)]
    have hd1 : data.drop (p + 1) = pyStrInt n ++ 101 :: rest := by
      have : data.drop (p + 1) = (data.drop p).drop 1 := by
        rw [List.drop_drop]
      rw [this, h]
      rfl
    rw [hd1]
    have : p + 1 + (pyStrInt n).length - (p + 1) = (pyStrInt n).length := by omega
    rw [this, List.take_left]
  simp only [Decoder.decode_integer, hidx, hfind]
  rw [if_neg (by decide)]
  simp only [if_neg hne, hslice, pyInt_pyStrInt]
  simp [List.length_cons]
  push_cast
  ring

end Bencode

namespace Bencode

theorem natDigits_not_colon (m : Nat) : ∀ x ∈ natDigits m, x ≠ 58 := by
  intro x hx
  have := natDigits_digits m x hx
  unfold isDigit at this
  omega

theorem decode_string_enc (data : List Nat) (p : Nat) (s rest : List Nat)
    (h : data.drop p = natDigits s.length ++ 58 :: (s ++ rest)) :
    Decoder.decode_string data (p : Int)
      = .ok (s, (p : Int) + (natDigits s.length).length + s.length) := by
  have hp : p ≤ data.length := by
    by_contra hc
    push_neg at hc
    rw [List.drop_eq_nil_of_le (le_of_lt hc)] at h
    simp at h
  have hlen : data.length
      = p + (natDigits s.length).length + 1 + s.length + rest.length := by
    have := congrArg List.length h
    rw [List.length_drop] at this
    simp [List.length_append] at this
    omega
  have hfind : pyFind data 58 (p : Int)
      = (p : Int) + ((natDigits s.length).length : Int) := by
    apply pyFind_first data p 58 (natDigits s.length) (s ++ rest) h
    exact natDigits_not_colon s.length
  have hne : ¬ ((p : Int) + ((natDigits s.length).length : Int) = -1) := by omega
  have hslice1 : pySlice data (p : Int)
      ((p : Int) + ((natDigits s.length).length : Int)) = natDigits s.length := by
    have h2 : ((p : Int) + ((natDigits s.length).length : Int))
        = ((p + (natDigits s.length).length : Nat) : Int) := by push_cast; ring
    rw [h2, pySlice_nat data _ _ (by omega) (by omega)]
    rw [h]
    have : p + (natDigits s.length).length - p = (natDigits s.length).length := by omega
    rw [this, List.take_left]
  have hdrop2 : data.drop (p + (natDigits s.length).length + 1) = s ++ rest := by
    have h0 : data.drop (p + (natDigits s.length).length + 1)
        = (data.drop p).drop ((natDigits s.length).length + 1) := by
      rw [List.drop_drop]
      try congr 1
      try omega
    rw [h0, h]
    have h1 : natDigits s.length ++ 58 :: (s ++ rest)
        = (natDigits s.length ++ [58]) ++ (s ++ rest) := by
      simp
    rw [h1]
    have h2 := List.drop_left (natDigits s.length ++ [58]) (s ++ rest)
    have h3 : (natDigits s.length ++ [58]).length
        = (natDigits s.length).length + 1 := by simp
    rw [h3] at h2
    exact h2
  have hslice2 : pySlice data
      ((p : Int) + ((natDigits s.length).length : Int) + 1)
      ((p : Int) + ((natDigits s.length).length : Int) + 1 + (s.length : Int))
      = s := by
    have ha : ((p : Int) + ((natDigits s.length).length : Int) + 1)
        = ((p + (natDigits s.length).length + 1 : Nat) : Int) := by push_cast; ring
    have hb : ((p : Int) + ((natDigits s.length).length : Int) + 1 + (s.length : Int))
        = ((p + (natDigits s.length).length + 1 + s.length : Nat) : Int) := by
      push_cast; ring
    rw [hb, ha, pySlice_nat data _ _ (by omega) (by omega)]
    rw [hdrop2]
    have : p + (natDigits s.length).length + 1 + s.length
        - (p + (natDigits s.length).length + 1) = s.length := by omega
    rw [this, List.take_left]
  simp only [Decoder.decode_string, hfind, if_neg hne, hslice1, pyInt_natDigits]
  rw [hslice2]
  rw [if_neg (by omega)]
  have : ((p : Int) + ((natDigits s.length).length : Int) + 1 + (s.length : Int) - 1)
      = ((p : Int) + ((natDigits s.length).length : Int) + (s.length : Int)) := by ring
  rw [this]

end Bencode

namespace Bencode
open Decoder

theorem drop_skip_token (data : List Nat) (p : Nat) (tok post : List Nat)
    (h : data.drop p = tok ++ post) : data.drop (p + tok.length) = post := by
  have h0 : data.drop (p + tok.length) = (data.drop p).drop tok.length := by
    rw [List.drop_drop]
    try congr 1
    try omega
  rw [h0, h, List.drop_left]

theorem decode_list_succ (f : Nat) (data : List Nat) (pos : Int) :
    Decoder.decode_list (f + 1) data pos =
      (match pyIndex data pos with
       | none => some (.error .idxErr)
       | some b =>
         if b ≠ 108 then some (.error .listErr)
         else Decoder.listLoop f data (pos + 1) []) := rfl

theorem decode_dictionary_succ (f : Nat) (data : List Nat) (pos : Int) :
    Decoder.decode_dictionary (f + 1) data pos =
      (match pyIndex data pos with
       | none => some (.error .idxErr)
       | some b =>
         if b ≠ 100 then some (.error .listErr)
         else Decoder.dictLoop f data (pos + 1) []) := rfl

theorem listLoop_succ (f : Nat) (data : List Nat) (cur : Int) (acc : List PyVal) :
    Decoder.listLoop (f + 1) data cur acc =
      (if cur < (data.length : Int) then
        match pyIndex data cur with
        | none => some (.error .idxErr)
        | some b =>
          if b = 105 then
            match Decoder.decode_integer data cur with
            | .error e => some (.error e)
            | .ok (n, ePos) => Decoder.listLoop f data (ePos + 1) (acc ++ [.int n])
          else if isDigit b then
            match Decoder.decode_string data cur with
            | .error e => some (.error e)
            | .ok (s, ePos) => Decoder.listLoop f data (ePos + 1) (acc ++ [.bytes s])
          else if b = 108 then
            match Decoder.decode_list f data cur with
            | none => none
            | some (.error e) => some (.error e)
            | some (.ok (l, ePos)) =>
              Decoder.listLoop f data (ePos + 1) (acc ++ [.list l])
          else if b = 100 then
            match Decoder.decode_dictionary f data cur with
            | none => none
            | some (.error e) => some (.error e)
            | some (.ok (d, ePos)) =>
              Decoder.listLoop f data (ePos + 1) (acc ++ [.dict d])
          else if b = 101 then some (.ok (acc, cur))
          else some (.error .listErr)
      else some (.error .listErr)) := rfl

theorem dictLoop_succ (f : Nat) (data : List Nat) (cur : Int)
    (acc : List (PyVal × PyVal)) :
    Decoder.dictLoop (f + 1) data cur acc =
      (if cur < (data.length : Int) then
        match pyIndex data cur with
        | none => some (.error .idxErr)
        | some b =>
          if b = 101 then some (.ok (acc, cur))
          else
            match Decoder.decode_string data cur with
            | .error e => some (.error e)
            | .ok (k, kEnd) =>
              match pyIndex data (kEnd + 1) with
              | none => some (.error .idxErr)
              | some b2 =>
                if b2 = 105 then
                  match Decoder.decode_integer data (kEnd + 1) with
                  | .error e => some (.error e)
                  | .ok (n, ePos) =>
                    Decoder.dictLoop f data (ePos + 1)
                      (dictSet acc (.bytes k) (.int n))
                else if isDigit b2 then
                  match Decoder.decode_string data (kEnd + 1) with
                  | .error e => some (.error e)
                  | .ok (s, ePos) =>
                    Decoder.dictLoop f data (ePos + 1)
                      (dictSet acc (.bytes k) (.bytes s))
                else if b2 = 108 then
                  match Decoder.decode_list f data (kEnd + 1) with
                  | none => none
                  | some (.error e) => some (.error e)
                  | some (.ok (l, ePos)) =>
                    Decoder.dictLoop f data (ePos + 1)
                      (dictSet acc (.bytes k) (.list l))
                else if b2 = 100 then
                  match Decoder.decode_dictionary f data (kEnd + 1) with
                  | none => none
                  | some (.error e) => some (.error e)
                  | some (.ok (d2, ePos)) =>
                    Decoder.dictLoop f data (ePos + 1)
                      (dictSet acc (.bytes k) (.dict d2))
                else some (.error .dictErr)
      else some (.error .dictErr)) := rfl

theorem encBytes_ne_nil (v : PyVal) (h : supportedB v = true) : encBytes v ≠ [] := by
  cases v <;> simp_all [supportedB, encBytes]

end Bencode

namespace Bencode
open Decoder

theorem natDigits_head_digit (m : Nat) :
    ∃ c, (natDigits m).head? = some c ∧ isDigit c := by
  cases hd : natDigits m with
  | nil => exact absurd hd (natDigits_ne_nil m)
  | cons c rest =>
    refine ⟨c, rfl, ?_⟩
    have := natDigits_digits m c
    rw [hd] at this
    exact this (List.mem_cons_self c rest)

theorem beqV_bytes_symm (w : PyVal) (a : List Nat) :
    beqV w (.bytes a) = beqV (.bytes a) w := by
  cases w <;> simp [beqV]
  exact eq_comm

theorem dictSet_fresh (acc : List (PyVal × PyVal)) (k v : PyVal)
    (h : acc.any (fun p => beqV p.1 k) = false) :
    dictSet acc k v = acc ++ [(k, v)] := by
  simp [dictSet, h]

theorem nodup_head_fresh (acc : List (PyVal × PyVal)) (kb : List Nat) (v : PyVal)
    (d : List (PyVal × PyVal))
    (h : nodupKeysB (acc ++ (PyVal.bytes kb, v) :: d) = true) :
    acc.any (fun p => beqV p.1 (.bytes kb)) = false := by
  induction acc with
  | nil => rfl
  | cons a acc ih =>
    obtain ⟨k1, v1⟩ := a
    simp only [nodupKeysB, List.cons_append, List.append_eq, Bool.and_eq_true,
      Bool.not_eq_true'] at h
    obtain ⟨hany, hrest⟩ := h
    have hk : beqV (.bytes kb) k1 = false := by
      by_contra hc
      rw [Bool.not_eq_false] at hc
      have hmem : (acc ++ (PyVal.bytes kb, v) :: d).any
          (fun p => beqV p.1 k1) = true := by
        rw [List.any_eq_true]
        exact ⟨(.bytes kb, v), by simp, hc⟩
      rw [hmem] at hany
      exact Bool.noConfusion hany
    simp only [List.any_cons, Bool.or_eq_false_iff]
    constructor
    · rw [beqV_bytes_symm k1 kb]
      exact hk
    · exact ih hrest

end Bencode

namespace Bencode
open Decoder

mutual

theorem listLoop_enc (l : List PyVal) (data : List Nat) (p : Nat)
    (acc : List PyVal) (rest : List Nat) (ex : Nat)
    (hsup : supportedL l = true)
    (h : data.drop p = encBytesL l ++ 101 :: rest) :
    Decoder.listLoop (needL l + ex) data (p : Int) acc
      = some (.ok (acc ++ l, (p : Int) + ((encBytesL l).length : Int))) := by
  match l with
  | [] =>
    have hshape : data.drop p = 101 :: rest := by
      rw [h]; simp [encBytesL]
    have hplt : p < data.length := drop_cons_lt data p _ _ hshape
    have hfe : needL ([] : List PyVal) + ex = ex + 1 := by
      simp only [needL]; omega
    have hidx : pyIndex data (p : Int) = some 101 := by
      rw [pyIndex_nat, hshape]; rfl
    rw [hfe, listLoop_succ, if_pos (by exact_mod_cast hplt)]
    simp only [hidx]
    rw [if_neg (show ¬((101:Nat) = 105) by decide),
      if_neg (show ¬isDigit 101 by decide),
      if_neg (show ¬((101:Nat) = 108) by decide),
      if_neg (show ¬((101:Nat) = 100) by decide)]
    simp [encBytesL]
  | PyVal.int n :: r =>
    simp only [supportedL, Bool.and_eq_true] at hsup
    obtain ⟨hv, hr⟩ := hsup
    have hshape : data.drop p
        = 105 :: (pyStrInt n ++ 101 :: (encBytesL r ++ 101 :: rest)) := by
      rw [h]; simp [encBytesL, encBytes]
    have hplt : p < data.length := drop_cons_lt data p _ _ hshape
    have hfe : needL (PyVal.int n :: r) + ex = (needL r + ex) + 1 := by
      simp only [needL, needB]; omega
    have hidx : pyIndex data (p : Int) = some 105 := by
      rw [pyIndex_nat, hshape]; rfl
    have hint := decode_integer_enc data p n _ hshape
    have hnext : data.drop (p + ((pyStrInt n).length + 2))
        = encBytesL r ++ 101 :: rest := by
      have := drop_skip_token data p (105 :: (pyStrInt n ++ [101]))
        (encBytesL r ++ 101 :: rest) (by rw [hshape]; simp)
      simpa using this
    have hpos : (p : Int) + ((pyStrInt n).length : Int) + 1 + 1
        = ((p + ((pyStrInt n).length + 2) : Nat) : Int) := by push_cast; ring
    have hcont := listLoop_enc r data (p + ((pyStrInt n).length + 2))
      (acc ++ [PyVal.int n]) rest ex hr hnext
    rw [hfe, listLoop_succ, if_pos (by exact_mod_cast hplt)]
    simp only [hidx]
    rw [if_pos True.intro]
    simp only [hint]
    rw [hpos, hcont]
    simp only [Option.some.injEq, Except.ok.injEq, Prod.mk.injEq]
    constructor
    · simp
    · simp [encBytesL, encBytes]
      push_cast
      ring
  | PyVal.bytes s :: r =>
    simp only [supportedL, Bool.and_eq_true] at hsup
    obtain ⟨hv, hr⟩ := hsup
    obtain ⟨c, hc, hcdig⟩ := natDigits_head_digit s.length
    obtain ⟨t, hnd⟩ : ∃ t, natDigits s.length = c :: t := by
      cases hd : natDigits s.length with
      | nil => rw [hd] at hc; exact absurd hc (by simp)
      | cons c2 t =>
        rw [hd] at hc
        simp only [List.head?_cons, Option.some.injEq] at hc
        exact ⟨t, by rw [hc]⟩
    have hshape : data.drop p
        = natDigits s.length ++ 58 :: (s ++ (encBytesL r ++ 101 :: rest)) := by
      rw [h]; simp [encBytesL, encBytes]
    have hshapeC : data.drop p
        = c :: (t ++ 58 :: (s ++ (encBytesL r ++ 101 :: rest))) := by
      rw [hshape, hnd]; rfl
    have hplt : p < data.length := drop_cons_lt data p _ _ hshapeC
    have hfe : needL (PyVal.bytes s :: r) + ex = (needL r + ex) + 1 := by
      simp only [needL, needB]; omega
    have hidx : pyIndex data (p : Int) = some c := by
      rw [pyIndex_nat, hshapeC]; rfl
    have hstr := decode_string_enc data p s _ hshape
    have hnext : data.drop (p + ((natDigits s.length).length + 1 + s.length))
        = encBytesL r ++ 101 :: rest := by
      have := drop_skip_token data p (natDigits s.length ++ 58 :: s)
        (encBytesL r ++ 101 :: rest) (by rw [hshape]; simp)
      simpa [Nat.add_assoc, Nat.add_comm, Nat.add_left_comm] using this
    have hpos : (p : Int) + ((natDigits s.length).length : Int)
          + (s.length : Int) + 1
        = ((p + ((natDigits s.length).length + 1 + s.length) : Nat) : Int) := by
      push_cast; ring
    have hcont := listLoop_enc r data
      (p + ((natDigits s.length).length + 1 + s.length))
      (acc ++ [PyVal.bytes s]) rest ex hr hnext
    have hc105 : c ≠ 105 := by unfold isDigit at hcdig; omega
    rw [hfe, listLoop_succ, if_pos (by exact_mod_cast hplt)]
    simp only [hidx]
    rw [if_neg hc105, if_pos hcdig]
    simp only [hstr]
    rw [hpos, hcont]
    simp only [Option.some.injEq, Except.ok.injEq, Prod.mk.injEq]
    constructor
    · simp
    · simp [encBytesL, encBytes]
      push_cast
      ring
  | PyVal.list l2 :: r =>
    simp only [supportedL, Bool.and_eq_true] at hsup
    obtain ⟨hv, hr⟩ := hsup
    have hv2 : supportedL l2 = true := by simpa [supportedB] using hv
    have hshape : data.drop p
        = 108 :: (encBytesL l2 ++ 101 :: (encBytesL r ++ 101 :: rest)) := by
      rw [h]; simp [encBytesL, encBytes]
    have hplt : p < data.length := drop_cons_lt data p _ _ hshape
    have hfe : needL (PyVal.list l2 :: r) + ex
        = (needB (PyVal.list l2) + needL r + ex) + 1 := by
      simp only [needL]; omega
    have hidx : pyIndex data (p : Int) = some 108 := by
      rw [pyIndex_nat, hshape]; rfl
    have hnested : Decoder.decode_list (needB (PyVal.list l2) + needL r + ex)
        data (p : Int)
        = some (.ok (l2, (p : Int) + ((encBytesL l2).length : Int) + 1)) := by
      rw [show needB (PyVal.list l2) + needL r + ex
          = 1 + needL l2 + (needL r + ex) from by simp only [needB]; omega]
      exact decode_list_enc l2 data p _ (needL r + ex) hv2 hshape
    have hnext : data.drop (p + ((encBytesL l2).length + 2))
        = encBytesL r ++ 101 :: rest := by
      have := drop_skip_token data p (108 :: (encBytesL l2 ++ [101]))
        (encBytesL r ++ 101 :: rest) (by rw [hshape]; simp)
      simpa [Nat.add_assoc, Nat.add_comm, Nat.add_left_comm] using this
    have hpos : (p : Int) + ((encBytesL l2).length : Int) + 1 + 1
        = ((p + ((encBytesL l2).length + 2) : Nat) : Int) := by push_cast; ring
    have hcont : Decoder.listLoop (needB (PyVal.list l2) + needL r + ex) data
        (((p + ((encBytesL l2).length + 2) : Nat) : Int)) (acc ++ [PyVal.list l2])
        = some (.ok ((acc ++ [PyVal.list l2]) ++ r,
            ((p + ((encBytesL l2).length + 2) : Nat) : Int)
              + ((encBytesL r).length : Int))) := by
      rw [show needB (PyVal.list l2) + needL r + ex
          = needL r + (needB (PyVal.list l2) + ex) from by omega]
      exact listLoop_enc r data _ _ rest (needB (PyVal.list l2) + ex) hr hnext
    rw [hfe, listLoop_succ, if_pos (by exact_mod_cast hplt)]
    simp only [hidx]
    rw [if_neg (by decide)]
    rw [if_neg (by decide)]
    rw [if_pos True.intro]
    simp only [hnested]
    rw [hpos, hcont]
    simp only [Option.some.injEq, Except.ok.injEq, Prod.mk.injEq]
    constructor
    · simp
    · simp [encBytesL, encBytes]
      push_cast
      ring
  | PyVal.dict d2 :: r =>
    simp only [supportedL, Bool.and_eq_true] at hsup
    obtain ⟨hv, hr⟩ := hsup
    have hv2 : (supportedD d2 && nodupKeysB d2) = true := by
      simpa [supportedB] using hv
    rw [Bool.and_eq_true] at hv2
    have hshape : data.drop p
        = 100 :: (encBytesD d2 ++ 101 :: (encBytesL r ++ 101 :: rest)) := by
      rw [h]; simp [encBytesL, encBytes]
    have hplt : p < data.length := drop_cons_lt data p _ _ hshape
    have hfe : needL (PyVal.dict d2 :: r) + ex
        = (needB (PyVal.dict d2) + needL r + ex) + 1 := by
      simp only [needL]; omega
    have hidx : pyIndex data (p : Int) = some 100 := by
      rw [pyIndex_nat, hshape]; rfl
    have hnested : Decoder.decode_dictionary (needB (PyVal.dict d2) + needL r + ex)
        data (p : Int)
        = some (.ok (d2, (p : Int) + ((encBytesD d2).length : Int) + 1)) := by
      rw [show needB (PyVal.dict d2) + needL r + ex
          = 1 + needD d2 + (needL r + ex) from by simp only [needB]; omega]
      exact decode_dictionary_enc d2 data p _ (needL r + ex) hv2.1 hv2.2 hshape
    have hnext : data.drop (p + ((encBytesD d2).length + 2))
        = encBytesL r ++ 101 :: rest := by
      have := drop_skip_token data p (100 :: (encBytesD d2 ++ [101]))
        (encBytesL r ++ 101 :: rest) (by rw [hshape]; simp)
      simpa [Nat.add_assoc, Nat.add_comm, Nat.add_left_comm] using this
    have hpos : (p : Int) + ((encBytesD d2).length : Int) + 1 + 1
        = ((p + ((encBytesD d2).length + 2) : Nat) : Int) := by push_cast; ring
    have hcont : Decoder.listLoop (needB (PyVal.dict d2) + needL r + ex) data
        (((p + ((encBytesD d2).length + 2) : Nat) : Int)) (acc ++ [PyVal.dict d2])
        = some (.ok ((acc ++ [PyVal.dict d2]) ++ r,
            ((p + ((encBytesD d2).length + 2) : Nat) : Int)
              + ((encBytesL r).length : Int))) := by
      rw [show needB (PyVal.dict d2) + needL r + ex
          = needL r + (needB (PyVal.dict d2) + ex) from by omega]
      exact listLoop_enc r data _ _ rest (needB (PyVal.dict d2) + ex) hr hnext
    rw [hfe, listLoop_succ, if_pos (by exact_mod_cast hplt)]
    simp only [hidx]
    rw [if_neg (by decide)]
    rw [if_neg (by decide)]
    rw [if_neg (by decide)]
    rw [if_pos True.intro]
    simp only [hnested]
    rw [hpos, hcont]
    simp only [Option.some.injEq, Except.ok.injEq, Prod.mk.injEq]
    constructor
    · simp
    · simp [encBytesL, encBytes]
      push_cast
      ring
  | PyVal.str s :: r => simp [supportedL, supportedB] at hsup
  | PyVal.bool b :: r => simp [supportedL, supportedB] at hsup
  | PyVal.pyNone :: r => simp [supportedL, supportedB] at hsup
  | PyVal.other t :: r => simp [supportedL, supportedB] at hsup
termination_by 2 * sizeOf l

theorem dictLoop_enc (d : List (PyVal × PyVal)) (data : List Nat) (p : Nat)
    (acc : List (PyVal × PyVal)) (rest : List Nat) (ex : Nat)
    (hsup : supportedD d = true) (hnd : nodupKeysB (acc ++ d) = true)
    (h : data.drop p = encBytesD d ++ 101 :: rest) :
    Decoder.dictLoop (needD d + ex) data (p : Int) acc
      = some (.ok (acc ++ d, (p : Int) + ((encBytesD d).length : Int))) := by
  match d with
  | [] =>
    have hshape : data.drop p = 101 :: rest := by
      rw [h]; simp [encBytesD]
    have hplt : p < data.length := drop_cons_lt data p _ _ hshape
    have hfe : needD ([] : List (PyVal × PyVal)) + ex = ex + 1 := by
      simp only [needD]; omega
    have hidx : pyIndex data (p : Int) = some 101 := by
      rw [pyIndex_nat, hshape]; rfl
    rw [hfe, dictLoop_succ, if_pos (by exact_mod_cast hplt)]
    simp only [hidx]
    simp [encBytesD]
  | (k, PyVal.int n) :: r =>
    simp only [supportedD, Bool.and_eq_true] at hsup
    obtain ⟨⟨hk, hv⟩, hr⟩ := hsup
    obtain ⟨kb, rfl⟩ : ∃ kb, k = PyVal.bytes kb := by
      cases k <;> simp at hk
      exact ⟨_, rfl⟩
    obtain ⟨c, hc, hcdig⟩ := natDigits_head_digit kb.length
    obtain ⟨t, hndg⟩ : ∃ t, natDigits kb.length = c :: t := by
      cases hd : natDigits kb.length with
      | nil => rw [hd] at hc; exact absurd hc (by simp)
      | cons c2 t =>
        rw [hd] at hc
        simp only [List.head?_cons, Option.some.injEq] at hc
        exact ⟨t, by rw [hc]⟩
    have hshapeK : data.drop p
        = natDigits kb.length
            ++ 58 :: (kb ++ (encBytes (PyVal.int n) ++ (encBytesD r ++ 101 :: rest))) := by
      rw [h]; simp [encBytesD, encBytes]
    have hshapeC : data.drop p
        = c :: (t ++ 58 :: (kb
            ++ (encBytes (PyVal.int n) ++ (encBytesD r ++ 101 :: rest)))) := by
      rw [hshapeK, hndg]; rfl
    have hplt : p < data.length := drop_cons_lt data p _ _ hshapeC
    have hfe : needD ((PyVal.bytes kb, PyVal.int n) :: r) + ex
        = (needB (PyVal.int n) + needD r + ex) + 1 := by
      simp only [needD]; omega
    have hidx : pyIndex data (p : Int) = some c := by
      rw [pyIndex_nat, hshapeC]; rfl
    have hc101 : c ≠ 101 := by unfold isDigit at hcdig; omega
    have hkey := decode_string_enc data p kb _ hshapeK
    have hdropV : data.drop (p + ((natDigits kb.length).length + 1 + kb.length))
        = encBytes (PyVal.int n) ++ (encBytesD r ++ 101 :: rest) := by
      have := drop_skip_token data p (natDigits kb.length ++ 58 :: kb)
        (encBytes (PyVal.int n) ++ (encBytesD r ++ 101 :: rest))
        (by rw [hshapeK]; simp)
      simpa [Nat.add_assoc, Nat.add_comm, Nat.add_left_comm] using this
    have hposK : (p : Int) + ((natDigits kb.length).length : Int)
          + (kb.length : Int) + 1
        = ((p + ((natDigits kb.length).length + 1 + kb.length) : Nat) : Int) := by
      push_cast; ring
    have hfresh : acc.any (fun q => beqV q.1 (PyVal.bytes kb)) = false :=
      nodup_head_fresh acc kb (PyVal.int n) r hnd
    have hset : dictSet acc (PyVal.bytes kb) (PyVal.int n)
        = acc ++ [(PyVal.bytes kb, (PyVal.int n))] :=
      dictSet_fresh acc _ (PyVal.int n) hfresh
    have hndNext : nodupKeysB ((acc ++ [(PyVal.bytes kb, (PyVal.int n))]) ++ r)
        = true := by
      simpa using hnd
    rw [hfe, dictLoop_succ, if_pos (by exact_mod_cast hplt)]
    simp only [hidx]
    rw [if_neg hc101]
    simp only [hkey]
    rw [hposK]
    set pK := p + ((natDigits kb.length).length + 1 + kb.length) with hpK
    have hshapeV : data.drop pK
        = 105 :: (pyStrInt n ++ 101 :: (encBytesD r ++ 101 :: rest)) := by
      rw [hdropV]; simp [encBytes]
    have hidxV : pyIndex data (pK : Int) = some 105 := by
      rw [pyIndex_nat, hshapeV]; rfl
    have hint := decode_integer_enc data pK n _ hshapeV
    have hnext : data.drop (pK + ((pyStrInt n).length + 2))
        = encBytesD r ++ 101 :: rest := by
      have := drop_skip_token data pK (105 :: (pyStrInt n ++ [101]))
        (encBytesD r ++ 101 :: rest) (by rw [hshapeV]; simp)
      simpa using this
    have hpos : (pK : Int) + ((pyStrInt n).length : Int) + 1 + 1
        = ((pK + ((pyStrInt n).length + 2) : Nat) : Int) := by push_cast; ring
    have hcont : Decoder.dictLoop (needB (PyVal.int n) + needD r + ex) data
        (((pK + ((pyStrInt n).length + 2) : Nat) : Int))
        (acc ++ [(PyVal.bytes kb, PyVal.int n)])
        = some (.ok ((acc ++ [(PyVal.bytes kb, PyVal.int n)]) ++ r,
            ((pK + ((pyStrInt n).length + 2) : Nat) : Int)
              + ((encBytesD r).length : Int))) := by
      rw [show needB (PyVal.int n) + needD r + ex = needD r + ex from by
        simp only [needB]; omega]
      exact dictLoop_enc r data _ _ rest ex hr hndNext hnext
    simp only [hidxV]
    rw [if_pos True.intro]
    simp only [hint]
    rw [hset, hpos, hcont]
    simp only [Option.some.injEq, Except.ok.injEq, Prod.mk.injEq]
    constructor
    · simp
    · simp [encBytesD, encBytes, hpK]
      push_cast
      ring
  | (k, PyVal.bytes s) :: r =>
    simp only [supportedD, Bool.and_eq_true] at hsup
    obtain ⟨⟨hk, hv⟩, hr⟩ := hsup
    obtain ⟨kb, rfl⟩ : ∃ kb, k = PyVal.bytes kb := by
      cases k <;> simp at hk
      exact ⟨_, rfl⟩
    obtain ⟨c, hc, hcdig⟩ := natDigits_head_digit kb.length
    obtain ⟨t, hndg⟩ : ∃ t, natDigits kb.length = c :: t := by
      cases hd : natDigits kb.length with
      | nil => rw [hd] at hc; exact absurd hc (by simp)
      | cons c2 t =>
        rw [hd] at hc
        simp only [List.head?_cons, Option.some.injEq] at hc
        exact ⟨t, by rw [hc]⟩
    have hshapeK : data.drop p
        = natDigits kb.length
            ++ 58 :: (kb ++ (encBytes (PyVal.bytes s) ++ (encBytesD r ++ 101 :: rest))) := by
      rw [h]; simp [encBytesD, encBytes]
    have hshapeC : data.drop p
        = c :: (t ++ 58 :: (kb
            ++ (encBytes (PyVal.bytes s) ++ (encBytesD r ++ 101 :: rest)))) := by
      rw [hshapeK, hndg]; rfl
    have hplt : p < data.length := drop_cons_lt data p _ _ hshapeC
    have hfe : needD ((PyVal.bytes kb, PyVal.bytes s) :: r) + ex
        = (needB (PyVal.bytes s) + needD r + ex) + 1 := by
      simp only [needD]; omega
    have hidx : pyIndex data (p : Int) = some c := by
      rw [pyIndex_nat, hshapeC]; rfl
    have hc101 : c ≠ 101 := by unfold isDigit at hcdig; omega
    have hkey := decode_string_enc data p kb _ hshapeK
    have hdropV : data.drop (p + ((natDigits kb.length).length + 1 + kb.length))
        = encBytes (PyVal.bytes s) ++ (encBytesD r ++ 101 :: rest) := by
      have := drop_skip_token data p (natDigits kb.length ++ 58 :: kb)
        (encBytes (PyVal.bytes s) ++ (encBytesD r ++ 101 :: rest))
        (by rw [hshapeK]; simp)
      simpa [Nat.add_assoc, Nat.add_comm, Nat.add_left_comm] using this
    have hposK : (p : Int) + ((natDigits kb.length).length : Int)
          + (kb.length : Int) + 1
        = ((p + ((natDigits kb.length).length + 1 + kb.length) : Nat) : Int) := by
      push_cast; ring
    have hfresh : acc.any (fun q => beqV q.1 (PyVal.bytes kb)) = false :=
      nodup_head_fresh acc kb (PyVal.bytes s) r hnd
    have hset : dictSet acc (PyVal.bytes kb) (PyVal.bytes s)
        = acc ++ [(PyVal.bytes kb, (PyVal.bytes s))] :=
      dictSet_fresh acc _ (PyVal.bytes s) hfresh
    have hndNext : nodupKeysB ((acc ++ [(PyVal.bytes kb, (PyVal.bytes s))]) ++ r)
        = true := by
      simpa using hnd
    rw [hfe, dictLoop_succ, if_pos (by exact_mod_cast hplt)]
    simp only [hidx]
    rw [if_neg hc101]
    simp only [hkey]
    rw [hposK]
    set pK := p + ((natDigits kb.length).length + 1 + kb.length) with hpK
    obtain ⟨c2, hc2, hc2dig⟩ := natDigits_head_digit s.length
    obtain ⟨t2, hndg2⟩ : ∃ t2, natDigits s.length = c2 :: t2 := by
      cases hd : natDigits s.length with
      | nil => rw [hd] at hc2; exact absurd hc2 (by simp)
      | cons c3 t2 =>
        rw [hd] at hc2
        simp only [List.head?_cons, Option.some.injEq] at hc2
        exact ⟨t2, by rw [hc2]⟩
    have hshapeV : data.drop pK
        = natDigits s.length ++ 58 :: (s ++ (encBytesD r ++ 101 :: rest)) := by
      rw [hdropV]; simp [encBytes]
    have hshapeV2 : data.drop pK
        = c2 :: (t2 ++ 58 :: (s ++ (encBytesD r ++ 101 :: rest))) := by
      rw [hshapeV, hndg2]; rfl
    have hidxV : pyIndex data (pK : Int) = some c2 := by
      rw [pyIndex_nat, hshapeV2]; rfl
    have hstr := decode_string_enc data pK s _ hshapeV
    have hnext : data.drop (pK + ((natDigits s.length).length + 1 + s.length))
        = encBytesD r ++ 101 :: rest := by
      have := drop_skip_token data pK (natDigits s.length ++ 58 :: s)
        (encBytesD r ++ 101 :: rest) (by rw [hshapeV]; simp)
      simpa [Nat.add_assoc, Nat.add_comm, Nat.add_left_comm] using this
    have hpos : (pK : Int) + ((natDigits s.length).length : Int)
          + (s.length : Int) + 1
        = ((pK + ((natDigits s.length).length + 1 + s.length) : Nat) : Int) := by
      push_cast; ring
    have hcont : Decoder.dictLoop (needB (PyVal.bytes s) + needD r + ex) data
        (((pK + ((natDigits s.length).length + 1 + s.length) : Nat) : Int))
        (acc ++ [(PyVal.bytes kb, PyVal.bytes s)])
        = some (.ok ((acc ++ [(PyVal.bytes kb, PyVal.bytes s)]) ++ r,
            ((pK + ((natDigits s.length).length + 1 + s.length) : Nat) : Int)
              + ((encBytesD r).length : Int))) := by
      rw [show needB (PyVal.bytes s) + needD r + ex = needD r + ex from by
        simp only [needB]; omega]
      exact dictLoop_enc r data _ _ rest ex hr hndNext hnext
    have hc2105 : c2 ≠ 105 := by unfold isDigit at hc2dig; omega
    simp only [hidxV]
    rw [if_neg hc2105, if_pos hc2dig]
    simp only [hstr]
    rw [hset, hpos, hcont]
    simp only [Option.some.injEq, Except.ok.injEq, Prod.mk.injEq]
    constructor
    · simp
    · simp [encBytesD, encBytes, hpK]
      push_cast
      ring
  | (k, PyVal.list l2) :: r =>
    simp only [supportedD, Bool.and_eq_true] at hsup
    obtain ⟨⟨hk, hv⟩, hr⟩ := hsup
    obtain ⟨kb, rfl⟩ : ∃ kb, k = PyVal.bytes kb := by
      cases k <;> simp at hk
      exact ⟨_, rfl⟩
    obtain ⟨c, hc, hcdig⟩ := natDigits_head_digit kb.length
    obtain ⟨t, hndg⟩ : ∃ t, natDigits kb.length = c :: t := by
      cases hd : natDigits kb.length with
      | nil => rw [hd] at hc; exact absurd hc (by simp)
      | cons c2 t =>
        rw [hd] at hc
        simp only [List.head?_cons, Option.some.injEq] at hc
        exact ⟨t, by rw [hc]⟩
    have hshapeK : data.drop p
        = natDigits kb.length
            ++ 58 :: (kb ++ (encBytes (PyVal.list l2) ++ (encBytesD r ++ 101 :: rest))) := by
      rw [h]; simp [encBytesD, encBytes]
    have hshapeC : data.drop p
        = c :: (t ++ 58 :: (kb
            ++ (encBytes (PyVal.list l2) ++ (encBytesD r ++ 101 :: rest)))) := by
      rw [hshapeK, hndg]; rfl
    have hplt : p < data.length := drop_cons_lt data p _ _ hshapeC
    have hfe : needD ((PyVal.bytes kb, PyVal.list l2) :: r) + ex
        = (needB (PyVal.list l2) + needD r + ex) + 1 := by
      simp only [needD]; omega
    have hidx : pyIndex data (p : Int) = some c := by
      rw [pyIndex_nat, hshapeC]; rfl
    have hc101 : c ≠ 101 := by unfold isDigit at hcdig; omega
    have hkey := decode_string_enc data p kb _ hshapeK
    have hdropV : data.drop (p + ((natDigits kb.length).length + 1 + kb.length))
        = encBytes (PyVal.list l2) ++ (encBytesD r ++ 101 :: rest) := by
      have := drop_skip_token data p (natDigits kb.length ++ 58 :: kb)
        (encBytes (PyVal.list l2) ++ (encBytesD r ++ 101 :: rest))
        (by rw [hshapeK]; simp)
      simpa [Nat.add_assoc, Nat.add_comm, Nat.add_left_comm] using this
    have hposK : (p : Int) + ((natDigits kb.length).length : Int)
          + (kb.length : Int) + 1
        = ((p + ((natDigits kb.length).length + 1 + kb.length) : Nat) : Int) := by
      push_cast; ring
    have hfresh : acc.any (fun q => beqV q.1 (PyVal.bytes kb)) = false :=
      nodup_head_fresh acc kb (PyVal.list l2) r hnd
    have hset : dictSet acc (PyVal.bytes kb) (PyVal.list l2)
        = acc ++ [(PyVal.bytes kb, (PyVal.list l2))] :=
      dictSet_fresh acc _ (PyVal.list l2) hfresh
    have hndNext : nodupKeysB ((acc ++ [(PyVal.bytes kb, (PyVal.list l2))]) ++ r)
        = true := by
      simpa using hnd
    rw [hfe, dictLoop_succ, if_pos (by exact_mod_cast hplt)]
    simp only [hidx]
    rw [if_neg hc101]
    simp only [hkey]
    rw [hposK]
    set pK := p + ((natDigits kb.length).length + 1 + kb.length) with hpK
    have hv2 : supportedL l2 = true := by simpa [supportedB] using hv
    have hshapeV : data.drop pK
        = 108 :: (encBytesL l2 ++ 101 :: (encBytesD r ++ 101 :: rest)) := by
      rw [hdropV]; simp [encBytes]
    have hidxV : pyIndex data (pK : Int) = some 108 := by
      rw [pyIndex_nat, hshapeV]; rfl
    have hnested : Decoder.decode_list (needB (PyVal.list l2) + needD r + ex)
        data (pK : Int)
        = some (.ok (l2, (pK : Int) + ((encBytesL l2).length : Int) + 1)) := by
      rw [show needB (PyVal.list l2) + needD r + ex
          = 1 + needL l2 + (needD r + ex) from by simp only [needB]; omega]
      exact decode_list_enc l2 data pK _ (needD r + ex) hv2 hshapeV
    have hnext : data.drop (pK + ((encBytesL l2).length + 2))
        = encBytesD r ++ 101 :: rest := by
      have := drop_skip_token data pK (108 :: (encBytesL l2 ++ [101]))
        (encBytesD r ++ 101 :: rest) (by rw [hshapeV]; simp)
      simpa [Nat.add_assoc, Nat.add_comm, Nat.add_left_comm] using this
    have hpos : (pK : Int) + ((encBytesL l2).length : Int) + 1 + 1
        = ((pK + ((encBytesL l2).length + 2) : Nat) : Int) := by push_cast; ring
    have hcont : Decoder.dictLoop (needB (PyVal.list l2) + needD r + ex) data
        (((pK + ((encBytesL l2).length + 2) : Nat) : Int))
        (acc ++ [(PyVal.bytes kb, PyVal.list l2)])
        = some (.ok ((acc ++ [(PyVal.bytes kb, PyVal.list l2)]) ++ r,
            ((pK + ((encBytesL l2).length + 2) : Nat) : Int)
              + ((encBytesD r).length : Int))) := by
      rw [show needB (PyVal.list l2) + needD r + ex
          = needD r + (needB (PyVal.list l2) + ex) from by omega]
      exact dictLoop_enc r data _ _ rest (needB (PyVal.list l2) + ex)
        hr hndNext hnext
    simp only [hidxV]
    rw [if_neg (show ¬((108:Nat) = 105) by decide)]
    rw [if_neg (show ¬isDigit 108 by decide)]
    rw [if_pos True.intro]
    simp only [hnested]
    rw [hset, hpos, hcont]
    simp only [Option.some.injEq, Except.ok.injEq, Prod.mk.injEq]
    constructor
    · simp
    · simp [encBytesD, encBytes, hpK]
      push_cast
      ring
  | (k, PyVal.dict d2) :: r =>
    simp only [supportedD, Bool.and_eq_true] at hsup
    obtain ⟨⟨hk, hv⟩, hr⟩ := hsup
    obtain ⟨kb, rfl⟩ : ∃ kb, k = PyVal.bytes kb := by
      cases k <;> simp at hk
      exact ⟨_, rfl⟩
    obtain ⟨c, hc, hcdig⟩ := natDigits_head_digit kb.length
    obtain ⟨t, hndg⟩ : ∃ t, natDigits kb.length = c :: t := by
      cases hd : natDigits kb.length with
      | nil => rw [hd] at hc; exact absurd hc (by simp)
      | cons c2 t =>
        rw [hd] at hc
        simp only [List.head?_cons, Option.some.injEq] at hc
        exact ⟨t, by rw [hc]⟩
    have hshapeK : data.drop p
        = natDigits kb.length
            ++ 58 :: (kb ++ (encBytes (PyVal.dict d2) ++ (encBytesD r ++ 101 :: rest))) := by
      rw [h]; simp [encBytesD, encBytes]
    have hshapeC : data.drop p
        = c :: (t ++ 58 :: (kb
            ++ (encBytes (PyVal.dict d2) ++ (encBytesD r ++ 101 :: rest)))) := by
      rw [hshapeK, hndg]; rfl
    have hplt : p < data.length := drop_cons_lt data p _ _ hshapeC
    have hfe : needD ((PyVal.bytes kb, PyVal.dict d2) :: r) + ex
        = (needB (PyVal.dict d2) + needD r + ex) + 1 := by
      simp only [needD]; omega
    have hidx : pyIndex data (p : Int) = some c := by
      rw [pyIndex_nat, hshapeC]; rfl
    have hc101 : c ≠ 101 := by unfold isDigit at hcdig; omega
    have hkey := decode_string_enc data p kb _ hshapeK
    have hdropV : data.drop (p + ((natDigits kb.length).length + 1 + kb.length))
        = encBytes (PyVal.dict d2) ++ (encBytesD r ++ 101 :: rest) := by
      have := drop_skip_token data p (natDigits kb.length ++ 58 :: kb)
        (encBytes (PyVal.dict d2) ++ (encBytesD r ++ 101 :: rest))
        (by rw [hshapeK]; simp)
      simpa [Nat.add_assoc, Nat.add_comm, Nat.add_left_comm] using this
    have hposK : (p : Int) + ((natDigits kb.length).length : Int)
          + (kb.length : Int) + 1
        = ((p + ((natDigits kb.length).length + 1 + kb.length) : Nat) : Int) := by
      push_cast; ring
    have hfresh : acc.any (fun q => beqV q.1 (PyVal.bytes kb)) = false :=
      nodup_head_fresh acc kb (PyVal.dict d2) r hnd
    have hset : dictSet acc (PyVal.bytes kb) (PyVal.dict d2)
        = acc ++ [(PyVal.bytes kb, (PyVal.dict d2))] :=
      dictSet_fresh acc _ (PyVal.dict d2) hfresh
    have hndNext : nodupKeysB ((acc ++ [(PyVal.bytes kb, (PyVal.dict d2))]) ++ r)
        = true := by
      simpa using hnd
    rw [hfe, dictLoop_succ, if_pos (by exact_mod_cast hplt)]
    simp only [hidx]
    rw [if_neg hc101]
    simp only [hkey]
    rw [hposK]
    set pK := p + ((natDigits kb.length).length + 1 + kb.length) with hpK
    have hv2 : (supportedD d2 && nodupKeysB d2) = true := by
      simpa [supportedB] using hv
    rw [Bool.and_eq_true] at hv2
    have hshapeV : data.drop pK
        = 100 :: (encBytesD d2 ++ 101 :: (encBytesD r ++ 101 :: rest)) := by
      rw [hdropV]; simp [encBytes]
    have hidxV : pyIndex data (pK : Int) = some 100 := by
      rw [pyIndex_nat, hshapeV]; rfl
    have hnested : Decoder.decode_dictionary
        (needB (PyVal.dict d2) + needD r + ex) data (pK : Int)
        = some (.ok (d2, (pK : Int) + ((encBytesD d2).length : Int) + 1)) := by
      rw [show needB (PyVal.dict d2) + needD r + ex
          = 1 + needD d2 + (needD r + ex) from by simp only [needB]; omega]
      exact decode_dictionary_enc d2 data pK _ (needD r + ex) hv2.1 hv2.2 hshapeV
    have hnext : data.drop (pK + ((encBytesD d2).length + 2))
        = encBytesD r ++ 101 :: rest := by
      have := drop_skip_token data pK (100 :: (encBytesD d2 ++ [101]))
        (encBytesD r ++ 101 :: rest) (by rw [hshapeV]; simp)
      simpa [Nat.add_assoc, Nat.add_comm, Nat.add_left_comm] using this
    have hpos : (pK : Int) + ((encBytesD d2).length : Int) + 1 + 1
        = ((pK + ((encBytesD d2).length + 2) : Nat) : Int) := by push_cast; ring
    have hcont : Decoder.dictLoop (needB (PyVal.dict d2) + needD r + ex) data
        (((pK + ((encBytesD d2).length + 2) : Nat) : Int))
        (acc ++ [(PyVal.bytes kb, PyVal.dict d2)])
        = some (.ok ((acc ++ [(PyVal.bytes kb, PyVal.dict d2)]) ++ r,
            ((pK + ((encBytesD d2).length + 2) : Nat) : Int)
              + ((encBytesD r).length : Int))) := by
      rw [show needB (PyVal.dict d2) + needD r + ex
          = needD r + (needB (PyVal.dict d2) + ex) from by omega]
      exact dictLoop_enc r data _ _ rest (needB (PyVal.dict d2) + ex)
        hr hndNext hnext
    simp only [hidxV]
    rw [if_neg (show ¬((100:Nat) = 105) by decide)]
    rw [if_neg (show ¬isDigit 100 by decide)]
    rw [if_neg (show ¬((100:Nat) = 108) by decide)]
    rw [if_pos True.intro]
    simp only [hnested]
    rw [hset, hpos, hcont]
    simp only [Option.some.injEq, Except.ok.injEq, Prod.mk.injEq]
    constructor
    · simp
    · simp [encBytesD, encBytes, hpK]
      push_cast
      ring
  | (k, PyVal.str s) :: r =>
    simp [supportedD, supportedB] at hsup
  | (k, PyVal.bool b) :: r =>
    simp [supportedD, supportedB] at hsup
  | (k, PyVal.pyNone) :: r =>
    simp [supportedD, supportedB] at hsup
  | (k, PyVal.other tg) :: r =>
    simp [supportedD, supportedB] at hsup
termination_by 2 * sizeOf d

theorem decode_list_enc (l : List PyVal) (data : List Nat) (p : Nat)
    (rest : List Nat) (ex : Nat) (hsup : supportedL l = true)
    (h : data.drop p = 108 :: (encBytesL l ++ 101 :: rest)) :
    Decoder.decode_list (1 + needL l + ex) data (p : Int)
      = some (.ok (l, (p : Int) + ((encBytesL l).length : Int) + 1)) := by
  have hidx : pyIndex data (p : Int) = some 108 := by
    rw [pyIndex_nat, h]; rfl
  have hdrop1 : data.drop (p + 1) = encBytesL l ++ 101 :: rest := by
    have := drop_skip_token data p [108] (encBytesL l ++ 101 :: rest)
      (by rw [h]; rfl)
    simpa using this
  have hpos1 : ((p : Int) + 1) = ((p + 1 : Nat) : Int) := by push_cast; ring
  have hcont := listLoop_enc l data (p + 1) [] rest ex hsup hdrop1
  rw [show 1 + needL l + ex = (needL l + ex) + 1 from by omega, decode_list_succ]
  simp only [hidx]
  rw [if_neg (by decide), hpos1, hcont]
  simp only [Option.some.injEq, Except.ok.injEq, Prod.mk.injEq]
  constructor
  · simp
  · push_cast
    ring
termination_by 2 * sizeOf l + 1

theorem decode_dictionary_enc (d : List (PyVal × PyVal)) (data : List Nat)
    (p : Nat) (rest : List Nat) (ex : Nat) (hsup : supportedD d = true)
    (hnd : nodupKeysB d = true)
    (h : data.drop p = 100 :: (encBytesD d ++ 101 :: rest)) :
    Decoder.decode_dictionary (1 + needD d + ex) data (p : Int)
      = some (.ok (d, (p : Int) + ((encBytesD d).length : Int) + 1)) := by
  have hidx : pyIndex data (p : Int) = some 100 := by
    rw [pyIndex_nat, h]; rfl
  have hdrop1 : data.drop (p + 1) = encBytesD d ++ 101 :: rest := by
    have := drop_skip_token data p [100] (encBytesD d ++ 101 :: rest)
      (by rw [h]; rfl)
    simpa using this
  have hpos1 : ((p : Int) + 1) = ((p + 1 : Nat) : Int) := by push_cast; ring
  have hcont := dictLoop_enc d data (p + 1) [] rest ex hsup (by simpa using hnd)
    hdrop1
  rw [show 1 + needD d + ex = (needD d + ex) + 1 from by omega,
    decode_dictionary_succ]
  simp only [hidx]
  rw [if_neg (by decide), hpos1, hcont]
  simp only [Option.some.injEq, Except.ok.injEq, Prod.mk.injEq]
  constructor
  · simp
  · push_cast
    ring
termination_by 2 * sizeOf d + 1

end

end Bencode

namespace Bencode
open Decoder Encoder

theorem decode_enc (v : PyVal) (hsup : supportedB v = true) (ex : Nat) :
    Decoder.decode (needB v + ex) (encBytes v) 0 = some (.ok v) := by
  match v, hsup with
  | PyVal.int n, _ =>
    have hshape : (encBytes (PyVal.int n)).drop 0
        = 105 :: (pyStrInt n ++ 101 :: []) := by
      simp [encBytes]
    have hint := decode_integer_enc (encBytes (PyVal.int n)) 0 n [] hshape
    have hidx : pyIndex (encBytes (PyVal.int n)) ((0 : Nat) : Int) = some 105 := by
      rw [pyIndex_nat, hshape]; rfl
    norm_num at hint hidx
    simp only [Decoder.decode, hidx]
    rw [if_pos True.intro]
    simp only [hint]
    rfl
  | PyVal.bytes s, _ =>
    obtain ⟨c, hc, hcdig⟩ := natDigits_head_digit s.length
    obtain ⟨t, hndg⟩ : ∃ t, natDigits s.length = c :: t := by
      cases hd : natDigits s.length with
      | nil => rw [hd] at hc; exact absurd hc (by simp)
      | cons c2 t =>
        rw [hd] at hc
        simp only [List.head?_cons, Option.some.injEq] at hc
        exact ⟨t, by rw [hc]⟩
    have hshape : (encBytes (PyVal.bytes s)).drop 0
        = natDigits s.length ++ 58 :: (s ++ []) := by
      simp [encBytes]
    have hshapeC : (encBytes (PyVal.bytes s)).drop 0
        = c :: (t ++ 58 :: (s ++ [])) := by
      rw [hshape, hndg]; rfl
    have hstr := decode_string_enc (encBytes (PyVal.bytes s)) 0 s [] hshape
    have hidx : pyIndex (encBytes (PyVal.bytes s)) ((0 : Nat) : Int) = some c := by
      rw [pyIndex_nat, hshapeC]; rfl
    have hc105 : c ≠ 105 := by unfold isDigit at hcdig; omega
    norm_num at hstr hidx
    simp only [Decoder.decode, hidx]
    rw [if_neg hc105, if_pos hcdig]
    simp only [hstr]
    rfl
  | PyVal.list l, hsup =>
    have hl : supportedL l = true := by simpa [supportedB] using hsup
    have hshape : (encBytes (PyVal.list l)).drop 0
        = 108 :: (encBytesL l ++ 101 :: []) := by
      simp [encBytes]
    have hfe : needB (PyVal.list l) + ex = 1 + needL l + ex := by
      simp only [needB]
    have hlst := decode_list_enc l (encBytes (PyVal.list l)) 0 [] ex hl hshape
    have hidx : pyIndex (encBytes (PyVal.list l)) ((0 : Nat) : Int) = some 108 := by
      rw [pyIndex_nat, hshape]; rfl
    norm_num at hlst hidx
    simp only [Decoder.decode, hidx]
    rw [if_neg (show ¬((108:Nat) = 105) by decide),
      if_neg (show ¬isDigit 108 by decide), if_pos True.intro]
    rw [hfe, hlst]
    rfl
  | PyVal.dict d, hsup =>
    have hd : (supportedD d && nodupKeysB d) = true := by
      simpa [supportedB] using hsup
    rw [Bool.and_eq_true] at hd
    have hshape : (encBytes (PyVal.dict d)).drop 0
        = 100 :: (encBytesD d ++ 101 :: []) := by
      simp [encBytes]
    have hfe : needB (PyVal.dict d) + ex = 1 + needD d + ex := by
      simp only [needB]
    have hdic := decode_dictionary_enc d (encBytes (PyVal.dict d)) 0 [] ex
      hd.1 hd.2 hshape
    have hidx : pyIndex (encBytes (PyVal.dict d)) ((0 : Nat) : Int)
        = some 100 := by
      rw [pyIndex_nat, hshape]; rfl
    norm_num at hdic hidx
    simp only [Decoder.decode, hidx]
    rw [if_neg (show ¬((100:Nat) = 105) by decide),
      if_neg (show ¬isDigit 100 by decide),
      if_neg (show ¬((100:Nat) = 108) by decide), if_pos True.intro]
    rw [hfe, hdic]
    rfl

end Bencode

namespace Bencode

mutual

theorem encode_eq_encBytes (v : PyVal) (h : supportedB v = true) :
    Encoder.encode v = .ok (encBytes v) := by
  match v, h with
  | PyVal.int n, _ => rfl
  | PyVal.bytes s, _ => rfl
  | PyVal.list l, h =>
    have hl : supportedL l = true := by simpa [supportedB] using h
    have := encItems_eq_encBytesL l hl
    simp only [Encoder.encode, Encoder.encode_list, this]
    simp [encBytes]
  | PyVal.dict d, h =>
    have hd : (supportedD d && nodupKeysB d) = true := by
      simpa [supportedB] using h
    rw [Bool.and_eq_true] at hd
    have := encPairs_eq_encBytesD d hd.1
    simp only [Encoder.encode, Encoder.encode_dictionary, this]
    simp [encBytes]

theorem encItems_eq_encBytesL (l : List PyVal) (h : supportedL l = true) :
    Encoder.encItems l = .ok (encBytesL l) := by
  match l, h with
  | [], _ => rfl
  | PyVal.int n :: r, h =>
    have hr : supportedL r = true := by
      simp only [supportedL, Bool.and_eq_true] at h; exact h.2
    have := encItems_eq_encBytesL r hr
    simp only [Encoder.encItems, Encoder.encode_integer, this]
    simp [encBytesL, encBytes]
  | PyVal.bytes s :: r, h =>
    have hr : supportedL r = true := by
      simp only [supportedL, Bool.and_eq_true] at h; exact h.2
    have := encItems_eq_encBytesL r hr
    simp only [Encoder.encItems, Encoder.encode_string, this]
    simp [encBytesL, encBytes]
  | PyVal.list l2 :: r, h =>
    simp only [supportedL, Bool.and_eq_true] at h
    have hv := encode_eq_encBytes (PyVal.list l2) h.1
    have hr := encItems_eq_encBytesL r h.2
    have hv2 : Encoder.encode_list (PyVal.list l2) = .ok (encBytes (PyVal.list l2)) := hv
    simp only [Encoder.encItems, hv2, hr]
    simp [encBytesL]
  | PyVal.dict d2 :: r, h =>
    simp only [supportedL, Bool.and_eq_true] at h
    have hv := encode_eq_encBytes (PyVal.dict d2) h.1
    have hr := encItems_eq_encBytesL r h.2
    have hv2 : Encoder.encode_dictionary (PyVal.dict d2)
        = .ok (encBytes (PyVal.dict d2)) := hv
    simp only [Encoder.encItems, hv2, hr]
    simp [encBytesL]
  | PyVal.str s :: r, h => simp [supportedL, supportedB] at h
  | PyVal.bool b :: r, h => simp [supportedL, supportedB] at h
  | PyVal.pyNone :: r, h => simp [supportedL, supportedB] at h
  | PyVal.other t :: r, h => simp [supportedL, supportedB] at h

theorem encPairs_eq_encBytesD (d : List (PyVal × PyVal))
    (h : supportedD d = true) :
    Encoder.encPairs d = .ok (encBytesD d) := by
  match d, h with
  | [], _ => rfl
  | (k, PyVal.int n) :: r, h =>
    simp only [supportedD, Bool.and_eq_true] at h
    obtain ⟨⟨hk, hv⟩, hr⟩ := h
    obtain ⟨kb, rfl⟩ : ∃ kb, k = PyVal.bytes kb := by
      cases k <;> simp at hk
      exact ⟨_, rfl⟩
    have hrr := encPairs_eq_encBytesD r hr
    simp only [Encoder.encPairs, Encoder.encode_string, Encoder.encode_integer, hrr]
    simp [encBytesD, encBytes]
  | (k, PyVal.bytes s) :: r, h =>
    simp only [supportedD, Bool.and_eq_true] at h
    obtain ⟨⟨hk, hv⟩, hr⟩ := h
    obtain ⟨kb, rfl⟩ : ∃ kb, k = PyVal.bytes kb := by
      cases k <;> simp at hk
      exact ⟨_, rfl⟩
    have hrr := encPairs_eq_encBytesD r hr
    simp only [Encoder.encPairs, Encoder.encode_string, hrr]
    simp [encBytesD, encBytes]
  | (k, PyVal.list l2) :: r, h =>
    simp only [supportedD, Bool.and_eq_true] at h
    obtain ⟨⟨hk, hv⟩, hr⟩ := h
    obtain ⟨kb, rfl⟩ : ∃ kb, k = PyVal.bytes kb := by
      cases k <;> simp at hk
      exact ⟨_, rfl⟩
    have hvv := encode_eq_encBytes (PyVal.list l2) hv
    have hv2 : Encoder.encode_list (PyVal.list l2)
        = .ok (encBytes (PyVal.list l2)) := hvv
    have hrr := encPairs_eq_encBytesD r hr
    simp only [Encoder.encPairs, Encoder.encode_string, hv2, hrr]
    simp [encBytesD, encBytes]
  | (k, PyVal.dict d2) :: r, h =>
    simp only [supportedD, Bool.and_eq_true] at h
    obtain ⟨⟨hk, hv⟩, hr⟩ := h
    obtain ⟨kb, rfl⟩ : ∃ kb, k = PyVal.bytes kb := by
      cases k <;> simp at hk
      exact ⟨_, rfl⟩
    have hvv := encode_eq_encBytes (PyVal.dict d2) hv
    have hv2 : Encoder.encode_dictionary (PyVal.dict d2)
        = .ok (encBytes (PyVal.dict d2)) := hvv
    have hrr := encPairs_eq_encBytesD r hr
    simp only [Encoder.encPairs, Encoder.encode_string, hv2, hrr]
    simp [encBytesD, encBytes]
  | (k, PyVal.str s) :: r, h => simp [supportedD, supportedB] at h
  | (k, PyVal.bool b) :: r, h => simp [supportedD, supportedB] at h
  | (k, PyVal.pyNone) :: r, h => simp [supportedD, supportedB] at h
  | (k, PyVal.other t) :: r, h => simp [supportedD, supportedB] at h

end

end Bencode

namespace Bencode

theorem encItems_skip (u : PyVal) (hu : UnsupportedKind u) (pre post : List PyVal) :
    Encoder.encItems (pre ++ u :: post) = Encoder.encItems (pre ++ post) := by
  induction pre with
  | nil =>
    rcases hu with rfl | ⟨t, rfl⟩
    · rfl
    · rfl
  | cons v pre ih =>
    cases v <;> simp only [List.cons_append, Encoder.encItems, List.append_eq, ih]

theorem encItems_eq_encEach (l : List PyVal)
    (h : ∀ v ∈ l, ¬ UnsupportedKind v) :
    Encoder.encItems l = encEach l := by
  induction l with
  | nil => rfl
  | cons v r ih =>
    have hr : ∀ w ∈ r, ¬ UnsupportedKind w :=
      fun w hw => h w (List.mem_cons_of_mem _ hw)
    have ihr := ih hr
    cases v with
    | int n => simp only [Encoder.encItems, encEach, Encoder.encode, ihr]
    | bytes s => simp only [Encoder.encItems, encEach, Encoder.encode, ihr]
    | str s => simp only [Encoder.encItems, encEach, Encoder.encode, ihr]
    | bool b => simp only [Encoder.encItems, encEach, Encoder.encode, ihr]
    | list l2 => simp only [Encoder.encItems, encEach, Encoder.encode, ihr]
    | dict d2 => simp only [Encoder.encItems, encEach, Encoder.encode, ihr]
    | pyNone => exact absurd (Or.inl rfl) (h _ (List.mem_cons_self _ _))
    | other t =>
      exact absurd (Or.inr ⟨t, rfl⟩) (h _ (List.mem_cons_self _ _))

theorem minimalDecimal_pyStrInt (n : Int) : MinimalDecimal (pyStrInt n) n := by
  unfold MinimalDecimal pyStrInt
  by_cases h : n < 0
  · simp only [h, if_pos]
    refine ⟨natDigits (-n).toNat, rfl, natDigits_digits _, natDigits_ne_nil _,
      ?_, ?_⟩
    · intro hc
      have h48 := natDigits_head_no_zero _ hc
      have hval := bytesToNat_natDigits (-n).toNat
      rw [h48] at hval
      simp [bytesToNat] at hval
      omega
    · rw [bytesToNat_natDigits]; omega
  · simp only [h, if_neg, ite_false]
    exact ⟨natDigits_digits _, natDigits_ne_nil _, natDigits_head_no_zero _,
      by rw [bytesToNat_natDigits]; omega⟩

theorem dictLoop_step7 (f : Nat) (acc : List (PyVal × PyVal)) :
    Decoder.dictLoop (f + 1) loopBuf 7 acc
      = Decoder.dictLoop f loopBuf 7 (Decoder.dictSet acc (.bytes []) (.int 42)) :=
  rfl

theorem dictLoop_stuck7 : ∀ (f : Nat) (acc : List (PyVal × PyVal)),
    Decoder.dictLoop f loopBuf 7 acc = none := by
  intro f
  induction f with
  | zero => intro acc; rfl
  | succ f ih =>
    intro acc
    rw [dictLoop_step7]
    exact ih _

theorem dict_diverges_helper : dictDiverges loopBuf 0 := by
  intro f
  match f with
  | 0 => rfl
  | f + 1 =>
    have h1 : Decoder.decode_dictionary (f + 1) loopBuf 0
        = Decoder.dictLoop f loopBuf 1 [] := rfl
    rw [h1]
    match f with
    | 0 => rfl
    | f + 1 =>
      have h2 : Decoder.dictLoop (f + 1) loopBuf 1 []
          = Decoder.dictLoop f loopBuf 7 [(.bytes [], .int 42)] := rfl
      rw [h2]
      exact dictLoop_stuck7 f _

theorem decode_diverges_helper : decodeDiverges loopBuf 0 := by
  intro f
  have h1 : Decoder.decode f loopBuf 0
      = (Decoder.decode_dictionary f loopBuf 0).map
          (Except.map (fun r => PyVal.dict r.1)) := rfl
  rw [h1, dict_diverges_helper f]
  rfl

theorem dictLoop_step8 (f : Nat) (acc : List (PyVal × PyVal)) :
    Decoder.dictLoop (f + 1) (108 :: loopBuf) 8 acc
      = Decoder.dictLoop f (108 :: loopBuf) 8
          (Decoder.dictSet acc (.bytes []) (.int 42)) :=
  rfl

theorem dictLoop_stuck8 : ∀ (f : Nat) (acc : List (PyVal × PyVal)),
    Decoder.dictLoop f (108 :: loopBuf) 8 acc = none := by
  intro f
  induction f with
  | zero => intro acc; rfl
  | succ f ih =>
    intro acc
    rw [dictLoop_step8]
    exact ih _

theorem dict_diverges_at1 : ∀ (f : Nat),
    Decoder.decode_dictionary f (108 :: loopBuf) 1 = none := by
  intro f
  match f with
  | 0 => rfl
  | f + 1 =>
    have h1 : Decoder.decode_dictionary (f + 1) (108 :: loopBuf) 1
        = Decoder.dictLoop f (108 :: loopBuf) 2 [] := rfl
    rw [h1]
    match f with
    | 0 => rfl
    | f + 1 =>
      have h2 : Decoder.dictLoop (f + 1) (108 :: loopBuf) 2 []
          = Decoder.dictLoop f (108 :: loopBuf) 8 [(.bytes [], .int 42)] := rfl
      rw [h2]
      exact dictLoop_stuck8 f _

theorem list_diverges_helper : listDiverges (108 :: loopBuf) 0 := by
  intro f
  match f with
  | 0 => rfl
  | f + 1 =>
    have h1 : Decoder.decode_list (f + 1) (108 :: loopBuf) 0
        = Decoder.listLoop f (108 :: loopBuf) 1 [] := rfl
    rw [h1]
    match f with
    | 0 => rfl
    | f + 1 =>
      have h2 : Decoder.listLoop (f + 1) (108 :: loopBuf) 1 []
          = (match Decoder.decode_dictionary f (108 :: loopBuf) 1 with
             | none => none
             | some (.error e) => some (.error e)
             | some (.ok (dd, ePos)) =>
               Decoder.listLoop f (108 :: loopBuf) (ePos + 1)
                 ([] ++ [.dict dd])) := rfl
      rw [h2, dict_diverges_at1 f]

end Bencode

namespace Bencode
open Decoder Encoder

/-- C1: for every value built only from the four supported kinds (integer,
byte string, list of such values, dictionary with unique byte-string keys
and such values), decoding the encoding yields the value back:
`Decoder.decode (Encoder.encode v) = v` (for any fuel at least `needB v`). -/
theorem claim_roundtrip (v : PyVal) (b : List Nat) (ex : Nat)
    (hsup : supportedB v = true) (henc : Encoder.encode v = .ok b) :
    Decoder.decode (needB v + ex) b 0 = some (.ok v) := by
  have hb := encode_eq_encBytes v hsup
  rw [henc] at hb
  have hb2 : b = encBytes v := by injection hb
  rw [hb2]
  exact decode_enc v hsup ex

theorem claim_roundtrip_witness :
    supportedB (PyVal.list [.int 42, .bytes [115, 112, 97, 109]]) = true
    ∧ Encoder.encode (PyVal.list [.int 42, .bytes [115, 112, 97, 109]])
        = .ok [108, 105, 52, 50, 101, 52, 58, 115, 112, 97, 109, 101]
    ∧ Decoder.decode
        (needB (PyVal.list [.int 42, .bytes [115, 112, 97, 109]]) + 0)
        [108, 105, 52, 50, 101, 52, 58, 115, 112, 97, 109, 101] 0
        = some (.ok (PyVal.list [.int 42, .bytes [115, 112, 97, 109]])) :=
  ⟨rfl, rfl, claim_roundtrip _ _ 0 rfl rfl⟩

/-- C2: the code does NOT raise on an unrecognised leading byte — for every
in-range position whose byte is none of `i`, a digit, `l`, `d`, the
dispatching `decode` falls off the end of the function and returns Python
`None` (no decode error is raised, contradicting the spec's requirement). -/
theorem claim_decode_unknown_tag (data : List Nat) (p : Nat) (b : Nat)
    (f : Nat) (hb : (data.drop p).head? = some b) (h1 : b ≠ 105)
    (h2 : ¬ isDigit b) (h3 : b ≠ 108) (h4 : b ≠ 100) :
    Decoder.decode f data (p : Int) = some (.ok PyVal.pyNone) := by
  simp only [Decoder.decode, pyIndex_nat, hb]
  rw [if_neg h1, if_neg h2, if_neg h3, if_neg h4]

theorem claim_decode_unknown_tag_witness :
    Decoder.decode 9 [120] ((0 : Nat) : Int) = some (.ok PyVal.pyNone) :=
  claim_decode_unknown_tag [120] 0 120 9 rfl (by decide) (by decide)
    (by decide) (by decide)

/-- C3: `decode(b"l4:spam")` does raise the end-of-list error
(`DecodeListError`), but `decode(b"d3:key")` raises `IndexError` (the
unguarded `data[current_pos]` after the key), not `DecodeDictionaryError`
as documented. -/
theorem claim_unterminated_containers :
    Decoder.decode 9 [108, 52, 58, 115, 112, 97, 109] 0
      = some (.error .listErr)
    ∧ Decoder.decode 9 [100, 51, 58, 107, 101, 121] 0
        = some (.error .idxErr)
    ∧ Decoder.decode 9 [100, 51, 58, 107, 101, 121] 0
        ≠ some (.error .dictErr) :=
  ⟨rfl, rfl, by
    intro h
    have h0 : (some (Except.error DErr.idxErr) : Option (Except DErr PyVal))
        = some (Except.error DErr.dictErr) :=
      (show Decoder.decode 9 [100, 51, 58, 107, 101, 121] 0
          = some (Except.error DErr.idxErr) from rfl).symm.trans h
    injection h0 with h1
    injection h1 with h2
    exact DErr.noConfusion h2⟩

/-- C4 counterexample: `b"i04e"` and `b"i-0e"` do NOT raise
`DecodeIntegerError` — Python `int()` accepts leading zeros and `-0`, so
they decode to `4` and `0`. -/
theorem claim_integer_edges_counterexample :
    Decoder.decode 1 [105, 48, 52, 101] 0 = some (.ok (.int 4))
    ∧ Decoder.decode 1 [105, 45, 48, 101] 0 = some (.ok (.int 0))
    ∧ Decoder.decode_integer [105, 48, 52, 101] 0 = .ok (4, 3)
    ∧ Decoder.decode_integer [105, 45, 48, 101] 0 = .ok (0, 3) :=
  ⟨rfl, rfl, rfl, rfl⟩

/-- C4 amended: `decode(b"i0e") = 0`, `decode(b"i-42e") = -42`, and
`b"ie"` raises `DecodeIntegerError`; but the leading-zero/negative-zero
rejection is relaxed: `b"i04e"` decodes to `4` and `b"i-0e"` to `0`. -/
theorem claim_integer_edges_amended :
    Decoder.decode 1 [105, 48, 101] 0 = some (.ok (.int 0))
    ∧ Decoder.decode 1 [105, 45, 52, 50, 101] 0 = some (.ok (.int (-42)))
    ∧ Decoder.decode 1 [105, 101] 0 = some (.error .intErr)
    ∧ Decoder.decode 1 [105, 48, 52, 101] 0 = some (.ok (.int 4))
    ∧ Decoder.decode 1 [105, 45, 48, 101] 0 = some (.ok (.int 0)) :=
  ⟨rfl, rfl, rfl, rfl, rfl⟩

/-- C5: when the byte at `pos` is not `d`, `decode_dictionary` raises
`DecodeListError` (decoder.py line 161), not `DecodeDictionaryError` as its
docstring and the spec state. -/
theorem claim_dictionary_wrong_tag (data : List Nat) (p : Nat) (b : Nat)
    (f : Nat) (hb : (data.drop p).head? = some b) (hbd : b ≠ 100) :
    Decoder.decode_dictionary (f + 1) data (p : Int)
      = some (.error .listErr) := by
  rw [decode_dictionary_succ]
  simp only [pyIndex_nat, hb]
  rw [if_pos hbd]

theorem claim_dictionary_wrong_tag_witness :
    Decoder.decode_dictionary 1 [120] ((0 : Nat) : Int)
      = some (.error .listErr) :=
  claim_dictionary_wrong_tag [120] 0 120 0 rfl (by decide)

/-- C6: every buffer produced by `Encoder.encode` on a supported value
re-encodes to itself after decoding: `encode (decode b) = b`. -/
theorem claim_canonical_reencode (v : PyVal) (b : List Nat) (ex : Nat)
    (hsup : supportedB v = true) (henc : Encoder.encode v = .ok b) :
    ∃ w, Decoder.decode (needB v + ex) b 0 = some (.ok w)
      ∧ Encoder.encode w = .ok b := by
  refine ⟨v, ?_, henc⟩
  have hb := encode_eq_encBytes v hsup
  rw [henc] at hb
  have hb2 : b = encBytes v := by injection hb
  rw [hb2]
  exact decode_enc v hsup ex

theorem claim_canonical_reencode_witness :
    supportedB (PyVal.dict [(.bytes [115, 112, 97, 109], .int 42)]) = true
    ∧ Encoder.encode (PyVal.dict [(.bytes [115, 112, 97, 109], .int 42)])
        = .ok [100, 52, 58, 115, 112, 97, 109, 105, 52, 50, 101, 101]
    ∧ ∃ w, Decoder.decode
          (needB (PyVal.dict [(.bytes [115, 112, 97, 109], .int 42)]) + 0)
          [100, 52, 58, 115, 112, 97, 109, 105, 52, 50, 101, 101] 0
          = some (.ok w)
        ∧ Encoder.encode w
            = .ok [100, 52, 58, 115, 112, 97, 109, 105, 52, 50, 101, 101] :=
  ⟨rfl, rfl, claim_canonical_reencode _ _ 0 rfl rfl⟩

/-- C7: `encode_list` never raises on an element of unsupported kind — it is
silently skipped (inserting one anywhere leaves the output unchanged) — and
on elements of the recognised kinds the output is `l`, the concatenation of
each element's encoding in order, then `e`. -/
theorem claim_list_skips_unsupported :
    (∀ (pre post : List PyVal) (u : PyVal), UnsupportedKind u →
        Encoder.encode_list (.list (pre ++ u :: post))
          = Encoder.encode_list (.list (pre ++ post)))
    ∧ (∀ l : List PyVal, (∀ v ∈ l, ¬ UnsupportedKind v) →
        Encoder.encode_list (.list l)
          = match encEach l with
            | .error e => .error e
            | .ok m => .ok (108 :: m ++ [101])) := by
  constructor
  · intro pre post u hu
    simp only [Encoder.encode_list, encItems_skip u hu pre post]
  · intro l hl
    simp only [Encoder.encode_list, encItems_eq_encEach l hl]

theorem claim_list_skips_unsupported_witness :
    Encoder.encode_list
        (.list ([PyVal.int 3] ++ PyVal.pyNone :: [PyVal.int 4]))
      = Encoder.encode_list (.list ([PyVal.int 3] ++ [PyVal.int 4]))
    ∧ Encoder.encode_list (.list [PyVal.int 3, PyVal.int 4])
        = match encEach [PyVal.int 3, PyVal.int 4] with
          | .error e => .error e
          | .ok m => .ok (108 :: m ++ [101]) :=
  ⟨claim_list_skips_unsupported.1 [PyVal.int 3] [PyVal.int 4] PyVal.pyNone
      (Or.inl rfl),
    claim_list_skips_unsupported.2 [PyVal.int 3, PyVal.int 4]
      (by
        intro v hv
        simp only [List.mem_cons, List.not_mem_nil, or_false] at hv
        rcases hv with rfl | rfl <;> simp [UnsupportedKind])⟩

end Bencode

namespace Bencode
open Decoder Encoder

/-- C8 counterexample: a successful decode need not return the index of the
last byte it consumed — `decode_string(b"-7:", 0)` succeeds (Python `int()`
parses the negative length `-7`, and the shortage check `0 < -7` fails) and
returns end position `-5`, which is before the start position and not a
valid index into the buffer at all. -/
theorem claim_inclusive_end_positions_counterexample :
    Decoder.decode_string [45, 55, 58] 0 = .ok ([], -5)
    ∧ pyIndex [45, 55, 58] (-5) = none :=
  ⟨rfl, rfl⟩

/-- C8 amended: on well-formed tokens every decode routine returns the
inclusive index of the last byte consumed: `decode_string(b"4:spam", 0) =
(b"spam", 5)`; a declared length of 0 ends at the `:` index;
`decode_integer` ends at its terminating `e` (the byte there is `e`);
`decode_string` ends at the last payload byte;
`decode_list`/`decode_dictionary` end at their terminating `e`.  However a
successful `decode_string` with a negative declared length returns
`colon + length`, which can precede the start position and be no consumed
byte's index: `decode_string(b"-7:", 0) = (b"", -5)`. -/
theorem claim_inclusive_end_positions :
    (Decoder.decode_string [52, 58, 115, 112, 97, 109] 0
      = .ok ([115, 112, 97, 109], 5))
    ∧ (∀ (data : List Nat) (p : Nat) (rest : List Nat),
        data.drop p = 48 :: 58 :: rest →
        Decoder.decode_string data (p : Int) = .ok ([], (p : Int) + 1))
    ∧ (∀ (data : List Nat) (p : Nat) (n : Int) (rest : List Nat),
        data.drop p = 105 :: (pyStrInt n ++ 101 :: rest) →
        Decoder.decode_integer data (p : Int)
            = .ok (n, (p : Int) + ((pyStrInt n).length : Int) + 1)
          ∧ pyIndex data ((p : Int) + ((pyStrInt n).length : Int) + 1)
              = some 101)
    ∧ (∀ (data : List Nat) (p : Nat) (s rest : List Nat),
        data.drop p = natDigits s.length ++ 58 :: (s ++ rest) →
        Decoder.decode_string data (p : Int)
          = .ok (s, (p : Int) + ((natDigits s.length).length : Int)
              + (s.length : Int)))
    ∧ (∀ (l : List PyVal) (data : List Nat) (p : Nat) (rest : List Nat)
          (ex : Nat), supportedL l = true →
        data.drop p = 108 :: (encBytesL l ++ 101 :: rest) →
        Decoder.decode_list (1 + needL l + ex) data (p : Int)
            = some (.ok (l, (p : Int) + ((encBytesL l).length : Int) + 1))
          ∧ pyIndex data ((p : Int) + ((encBytesL l).length : Int) + 1)
              = some 101)
    ∧ (∀ (d : List (PyVal × PyVal)) (data : List Nat) (p : Nat)
          (rest : List Nat) (ex : Nat), supportedD d = true →
        nodupKeysB d = true →
        data.drop p = 100 :: (encBytesD d ++ 101 :: rest) →
        Decoder.decode_dictionary (1 + needD d + ex) data (p : Int)
            = some (.ok (d, (p : Int) + ((encBytesD d).length : Int) + 1))
          ∧ pyIndex data ((p : Int) + ((encBytesD d).length : Int) + 1)
              = some 101)
    ∧ Decoder.decode_string [45, 55, 58] 0 = .ok ([], -5) := by
  refine ⟨rfl, ?_, ?_, ?_, ?_, ?_, rfl⟩
  · intro data p rest h
    have hsh : data.drop p
        = natDigits ([] : List Nat).length ++ 58 :: (([] : List Nat) ++ rest) := by
      simpa [natDigits] using h
    have := decode_string_enc data p [] rest hsh
    simpa [natDigits] using this
  · intro data p n rest h
    refine ⟨decode_integer_enc data p n rest h, ?_⟩
    have hdrop : data.drop (p + ((pyStrInt n).length + 1)) = 101 :: rest := by
      have := drop_skip_token data p (105 :: pyStrInt n) (101 :: rest)
        (by rw [h]; simp)
      simpa [Nat.add_comm] using this
    have hcast : (p : Int) + ((pyStrInt n).length : Int) + 1
        = ((p + ((pyStrInt n).length + 1) : Nat) : Int) := by push_cast; ring
    rw [hcast, pyIndex_nat, hdrop]
    rfl
  · intro data p s rest h
    exact decode_string_enc data p s rest h
  · intro l data p rest ex hsup h
    refine ⟨decode_list_enc l data p rest ex hsup h, ?_⟩
    have hdrop : data.drop (p + ((encBytesL l).length + 1)) = 101 :: rest := by
      have := drop_skip_token data p (108 :: encBytesL l) (101 :: rest)
        (by rw [h]; simp)
      simpa [Nat.add_comm] using this
    have hcast : (p : Int) + ((encBytesL l).length : Int) + 1
        = ((p + ((encBytesL l).length + 1) : Nat) : Int) := by push_cast; ring
    rw [hcast, pyIndex_nat, hdrop]
    rfl
  · intro d data p rest ex hsup hnd h
    refine ⟨decode_dictionary_enc d data p rest ex hsup hnd h, ?_⟩
    have hdrop : data.drop (p + ((encBytesD d).length + 1)) = 101 :: rest := by
      have := drop_skip_token data p (100 :: encBytesD d) (101 :: rest)
        (by rw [h]; simp)
      simpa [Nat.add_comm] using this
    have hcast : (p : Int) + ((encBytesD d).length : Int) + 1
        = ((p + ((encBytesD d).length + 1) : Nat) : Int) := by push_cast; ring
    rw [hcast, pyIndex_nat, hdrop]
    rfl

theorem claim_inclusive_end_positions_witness :
    Decoder.decode_integer [105, 52, 50, 101] ((0 : Nat) : Int)
        = .ok (42, ((0 : Nat) : Int) + ((pyStrInt 42).length : Int) + 1)
      ∧ pyIndex [105, 52, 50, 101]
          (((0 : Nat) : Int) + ((pyStrInt 42).length : Int) + 1) = some 101 :=
  claim_inclusive_end_positions.2.2.1 [105, 52, 50, 101] 0 42 [] rfl

/-- C9 counterexample: `True` passes `isinstance(data, int)` (bool is a
subclass of int), and `encode_integer(True)` yields `b"iTruee"`, which is
not of the form `i` + minimal decimal digits + `e`. -/
theorem claim_minimal_integer_counterexample :
    Encoder.encode_integer (.bool true) = .ok [105, 84, 114, 117, 101, 101]
    ∧ ∀ (n : Int) (ds : List Nat), MinimalDecimal ds n →
        105 :: ds ++ [101] ≠ [105, 84, 114, 117, 101, 101] := by
  refine ⟨rfl, ?_⟩
  intro n ds hds heq
  have happ : ds ++ [101] = [84, 114, 117, 101] ++ [101] := by
    have := heq
    injection this
  have hds4 : ds = [84, 114, 117, 101] :=
    (List.append_inj' happ rfl).1
  unfold MinimalDecimal at hds
  by_cases h : n < 0
  · rw [if_pos h] at hds
    obtain ⟨t, ht, _⟩ := hds
    rw [hds4] at ht
    injection ht with ht1
    exact absurd ht1 (by decide)
  · rw [if_neg h] at hds
    obtain ⟨hdig, _⟩ := hds
    have h84 : isDigit 84 := by
      apply hdig
      rw [hds4]
      exact List.mem_cons_self _ _
    unfold isDigit at h84
    omega

/-- C9 amended: for every true `int`, the output is `i` + minimal decimal
digits + `e` (no leading zeros, `-` only for negatives, never `-0`); but
`bool` values also pass the integer check and yield `b"iTruee"` /
`b"iFalsee"`. -/
theorem claim_minimal_integer_amended :
    (∀ n : Int, Encoder.encode_integer (.int n)
        = .ok (105 :: pyStrInt n ++ [101])
      ∧ MinimalDecimal (pyStrInt n) n)
    ∧ Encoder.encode_integer (.bool true) = .ok [105, 84, 114, 117, 101, 101]
    ∧ Encoder.encode_integer (.bool false)
        = .ok [105, 70, 97, 108, 115, 101, 101] :=
  ⟨fun n => ⟨rfl, minimalDecimal_pyStrInt n⟩, rfl, rfl⟩

/-- C10 counterexample: `decode_dictionary(b"d0:i42e-7:", 0)` never
terminates — the key at position 7 declares length `-7`, sending the cursor
back to position 3, and the loop revisits position 7 with an unchanged
dictionary forever. -/
theorem claim_termination_counterexample : dictDiverges loopBuf 0 :=
  dict_diverges_helper

/-- C10 amended: `decode_integer` and `decode_string` are total functions of
their input, but the container loops need not terminate: on
`b"d0:i42e-7:"` both `decode_dictionary` and `decode` run forever, and
`decode_list` runs forever on `b"ld0:i42e-7:"`. -/
theorem claim_termination_amended :
    dictDiverges loopBuf 0 ∧ decodeDiverges loopBuf 0
      ∧ listDiverges (108 :: loopBuf) 0 :=
  ⟨dict_diverges_helper, decode_diverges_helper, list_diverges_helper⟩

end Bencode
